import Mathlib

/-!
Verification of `eatmoreapple/hasher`.

A shallow embedding of `hasher.go` (`Encode`, `Verify`, `Salt`, the two
preconfigured hashers) together with the library functions they call
(`strings.Split`, `strings.Join`, `strconv.Itoa`, `strconv.Atoi`,
`base64.StdEncoding.EncodeToString`, `pbkdf2.Key`, `hmac`, `sha256`, `sha1`),
followed by theorems about the embedding.

Conventions.
* A Go `string` / `[]byte` is a list of bytes, a byte is a `Fin 256`.
* Go's `int` is the 64-bit two's-complement integer; values are carried as
  `Int` and the range `[-2^63, 2^63)` is stated where it matters.
* A Go result `(v, err)` is a pair whose second component is `none` for `nil`.
-/

namespace Hasher

/-! ## Bytes and strings -/

/-- A Go `byte`. -/
abbrev Byte := Fin 256

/-- A Go `string` (equally a `[]byte`): a finite sequence of bytes. -/
abbrev GoString := List Byte

/-- The byte with value `x mod 256` (Go's conversion `byte(x)`). -/
def byte (x : Nat) : Byte := ⟨x % 256, Nat.mod_lt x (by decide)⟩

/-- The delimiter `'$'` of the credential string. -/
def dollar : Byte := 36

/-- Bytes of an ASCII literal. -/
def lit (s : String) : GoString := s.toList.map (fun c => byte c.toNat)

/-! ## Errors -/

/-- The two sentinel errors of `strconv`. -/
inductive NumErrKind where
  | ErrSyntax
  | ErrRange
deriving DecidableEq

/-- A Go `error` value as far as this package can observe one: a
`*strconv.NumError` (the offending input and the sentinel), or an error
reported by the reader of `crypto/rand`. -/
inductive GoError where
  | NumError (Num : GoString) (Err : NumErrKind)
  | ReadError (msg : GoString)
deriving DecidableEq

/-! ## `strings.Split` and `strings.Join` with a one-byte separator -/

/-- `strings.Split(s, sep)` for a separator of one byte: the fields between
consecutive occurrences of `sep`; `Split("", sep)` is `[""]`. -/
def Split : GoString → Byte → List GoString
  | [], _ => [[]]
  | c :: s, sep =>
    if c = sep then [] :: Split s sep
    else
      match Split s sep with
      | [] => [[c]]
      | p :: ps => (c :: p) :: ps

/-- `strings.Join(elems, sep)` for a separator of one byte. -/
def Join : List GoString → Byte → GoString
  | [], _ => []
  | [a], _ => a
  | a :: b :: rest, sep => a ++ sep :: Join (b :: rest) sep

/-! ## `strconv.Itoa` and `strconv.Atoi` -/

/-- The ASCII digit of `d` (`'0' + d`). -/
def digitByte (d : Nat) : Byte := byte (48 + d % 10)

/-- The loop of `strconv.formatBits` in base 10: the digits of `u` are written
in front of `acc`, least significant first. `fuel` bounds the number of
digits. -/
def formatBits : Nat → Nat → GoString → GoString
  | 0, _, acc => acc
  | fuel + 1, u, acc =>
    if u < 10 then digitByte u :: acc
    else formatBits fuel (u / 10) (digitByte (u % 10) :: acc)

/-- `strconv.Itoa(i)`: `FormatInt(int64(i), 10)`. -/
def Itoa (i : Int) : GoString :=
  if i < 0 then (45 : Byte) :: formatBits (i.natAbs + 1) i.natAbs []
  else formatBits (i.natAbs + 1) i.natAbs []

/-- The digit loop of `strconv.ParseUint(s, 10, 64)`, started with the value
`n` read so far, on the remaining bytes. `s0` is the whole input, quoted in
the error. -/
def parseUintLoop (s0 : GoString) : Nat → GoString → Except GoError Nat
  | n, [] => .ok n
  | n, c :: rest =>
    if 48 ≤ c.val ∧ c.val ≤ 57 then
      let d := c.val - 48
      -- cutoff is the least n with n*10 > 2^64 - 1
      if n ≥ (2 ^ 64 - 1) / 10 + 1 then .error (.NumError s0 .ErrRange)
      else
        let n10 := n * 10 % 2 ^ 64
        let n1 := (n10 + d) % 2 ^ 64
        if n1 < n10 ∨ n1 > 2 ^ 64 - 1 then .error (.NumError s0 .ErrRange)
        else parseUintLoop s0 n1 rest
    else .error (.NumError s0 .ErrSyntax)

/-- `strconv.ParseUint(s, 10, 64)`; errors quote `s0`. -/
def ParseUint (s0 s : GoString) : Except GoError Nat :=
  match s with
  | [] => .error (.NumError s0 .ErrSyntax)
  | _ => parseUintLoop s0 0 s

/-- `strconv.Atoi(s)` with a 64-bit `int`. The fast path of the library (for
inputs shorter than 19 bytes) computes the same function as
`ParseInt(s, 10, 0)`, which is what is written here: an optional sign, then
`ParseUint`, then the range check against `1 << 63`. -/
def Atoi (s : GoString) : Except GoError Int :=
  match s with
  | [] => .error (.NumError s .ErrSyntax)
  | c :: rest =>
    let neg := decide (c = 45)
    let body := if c = 43 ∨ c = 45 then rest else s
    match ParseUint s body with
    | .error e => .error e
    | .ok un =>
      if ¬ neg ∧ un ≥ 2 ^ 63 then .error (.NumError s .ErrRange)
      else if neg ∧ un > 2 ^ 63 then .error (.NumError s .ErrRange)
      else .ok (if neg then - (un : Int) else (un : Int))

/-! ## `base64.StdEncoding.EncodeToString` -/

/-- The alphabet of `base64.StdEncoding`. -/
def encodeStd : GoString :=
  lit "ABCDEFGHIJKLMNOPQRSTUVWXYZabcdefghijklmnopqrstuvwxyz0123456789+/"

/-- The character for the 6-bit value `v`. -/
def b64char (v : Nat) : Byte := encodeStd.getD (v &&& 0x3F) 0

/-- `base64.StdEncoding.EncodeToString(src)`: three bytes give four characters;
a rest of one or two bytes is padded with `'='`. -/
def EncodeToString : List Byte → GoString
  | [] => []
  | [a] =>
    let v := a.val <<< 16
    [b64char (v >>> 18), b64char (v >>> 12), 61, 61]
  | [a, b] =>
    let v := a.val <<< 16 ||| b.val <<< 8
    [b64char (v >>> 18), b64char (v >>> 12), b64char (v >>> 6), 61]
  | a :: b :: c :: rest =>
    let v := a.val <<< 16 ||| b.val <<< 8 ||| c.val
    b64char (v >>> 18) :: b64char (v >>> 12) :: b64char (v >>> 6) :: b64char v ::
      EncodeToString rest

/-! ## Hash functions (`hash.Hash`) -/

/-- A `hash.Hash` as the callers in this package use one: its `Size()`, its
`BlockSize()` and the value `Sum(nil)` returns after the bytes `data` have been
written to a fresh (or reset) hash. The hashes of the package, `sha256.New` and
`sha1.New`, return `Size` bytes with `Size` positive (`Digest.WellFormed`); on
such hashes `pbkdf2.Key` below does what the library does. -/
structure Digest where
  Size : Nat
  BlockSize : Nat
  Sum : List Byte → List Byte

/-- Big-endian bytes of a 32-bit word. -/
def be32 (w : Nat) : List Byte := [byte (w >>> 24), byte (w >>> 16), byte (w >>> 8), byte w]

/-- Big-endian bytes of a 64-bit word. -/
def be64 (w : Nat) : List Byte := be32 (w >>> 32) ++ be32 w

/-- The 32-bit word of four big-endian bytes starting at `i`. -/
def word32At (p : List Byte) (i : Nat) : Nat :=
  (p.getD i 0).val <<< 24 ||| (p.getD (i + 1) 0).val <<< 16 |||
    (p.getD (i + 2) 0).val <<< 8 ||| (p.getD (i + 3) 0).val

/-- Rotate a 32-bit word right. -/
def rotr32 (x n : Nat) : Nat := (x >>> n ||| x <<< (32 - n)) % 2 ^ 32

/-- Rotate a 32-bit word left. -/
def rotl32 (x n : Nat) : Nat := (x <<< n ||| x >>> (32 - n)) % 2 ^ 32

/-- Bitwise complement of a 32-bit word. -/
def not32 (x : Nat) : Nat := (2 ^ 32 - 1) ^^^ (x % 2 ^ 32)

/-- The padding of SHA-1 and SHA-256: `0x80`, zeros up to 56 modulo 64, then
the length in bits as a 64-bit big-endian word. -/
def shaPad (msg : List Byte) : List Byte :=
  let len := msg.length
  let t := if len % 64 < 56 then 56 - len % 64 else 64 + 56 - len % 64
  msg ++ (0x80 : Byte) :: List.replicate (t - 1) 0 ++ be64 ((len <<< 3) % 2 ^ 64)

/-- The `i`-th 64-byte block of `p` as sixteen words. -/
def blockWords (p : List Byte) (i : Nat) : List Nat :=
  (List.range 16).map (fun j => word32At p (64 * i + 4 * j))

/-! ### SHA-256 -/

/-- The round constants of SHA-256. -/
def sha256K : List Nat :=
  [0x428a2f98, 0x71374491, 0xb5c0fbcf, 0xe9b5dba5, 0x3956c25b, 0x59f111f1, 0x923f82a4, 0xab1c5ed5,
   0xd807aa98, 0x12835b01, 0x243185be, 0x550c7dc3, 0x72be5d74, 0x80deb1fe, 0x9bdc06a7, 0xc19bf174,
   0xe49b69c1, 0xefbe4786, 0x0fc19dc6, 0x240ca1cc, 0x2de92c6f, 0x4a7484aa, 0x5cb0a9dc, 0x76f988da,
   0x983e5152, 0xa831c66d, 0xb00327c8, 0xbf597fc7, 0xc6e00bf3, 0xd5a79147, 0x06ca6351, 0x14292967,
   0x27b70a85, 0x2e1b2138, 0x4d2c6dfc, 0x53380d13, 0x650a7354, 0x766a0abb, 0x81c2c92e, 0x92722c85,
   0xa2bfe8a1, 0xa81a664b, 0xc24b8b70, 0xc76c51a3, 0xd192e819, 0xd6990624, 0xf40e3585, 0x106aa070,
   0x19a4c116, 0x1e376c08, 0x2748774c, 0x34b0bcb5, 0x391c0cb3, 0x4ed8aa4a, 0x5b9cca4f, 0x682e6ff3,
   0x748f82ee, 0x78a5636f, 0x84c87814, 0x8cc70208, 0x90befffa, 0xa4506ceb, 0xbef9a3f7, 0xc67178f2]

/-- The eight chaining words of SHA-256. -/
structure Sha256State where
  a : Nat
  b : Nat
  c : Nat
  d : Nat
  e : Nat
  f : Nat
  g : Nat
  h : Nat
deriving DecidableEq

/-- The initial chaining value of SHA-256. -/
def sha256Init : Sha256State :=
  ⟨0x6a09e667, 0xbb67ae85, 0x3c6ef372, 0xa54ff53a, 0x510e527f, 0x9b05688c, 0x1f83d9ab, 0x5be0cd19⟩

/-- The message schedule of SHA-256: sixteen block words extended to 64. -/
def sha256Schedule (w16 : List Nat) : List Nat :=
  (List.range 48).foldl (fun w i =>
    let v1 := w.getD (i + 14) 0
    let t1 := rotr32 v1 17 ^^^ rotr32 v1 19 ^^^ (v1 >>> 10)
    let v2 := w.getD (i + 1) 0
    let t2 := rotr32 v2 7 ^^^ rotr32 v2 18 ^^^ (v2 >>> 3)
    w ++ [(t1 + w.getD (i + 9) 0 + t2 + w.getD i 0) % 2 ^ 32]) w16

/-- One round of the SHA-256 compression function. -/
def sha256Round (w : List Nat) (s : Sha256State) (i : Nat) : Sha256State :=
  let t1 := s.h + (rotr32 s.e 6 ^^^ rotr32 s.e 11 ^^^ rotr32 s.e 25) +
    ((s.e &&& s.f) ^^^ (not32 s.e &&& s.g)) + sha256K.getD i 0 + w.getD i 0
  let t2 := (rotr32 s.a 2 ^^^ rotr32 s.a 13 ^^^ rotr32 s.a 22) +
    ((s.a &&& s.b) ^^^ (s.a &&& s.c) ^^^ (s.b &&& s.c))
  ⟨(t1 + t2) % 2 ^ 32, s.a, s.b, s.c, (s.d + t1) % 2 ^ 32, s.e, s.f, s.g⟩

/-- The SHA-256 compression of one block into the chaining value. -/
def sha256Block (p : List Byte) (s : Sha256State) (i : Nat) : Sha256State :=
  let w := sha256Schedule (blockWords p i)
  let r := (List.range 64).foldl (sha256Round w) s
  ⟨(s.a + r.a) % 2 ^ 32, (s.b + r.b) % 2 ^ 32, (s.c + r.c) % 2 ^ 32, (s.d + r.d) % 2 ^ 32,
   (s.e + r.e) % 2 ^ 32, (s.f + r.f) % 2 ^ 32, (s.g + r.g) % 2 ^ 32, (s.h + r.h) % 2 ^ 32⟩

/-- The SHA-256 checksum of `msg`. -/
def sha256Sum (msg : List Byte) : List Byte :=
  let p := shaPad msg
  let s := (List.range (p.length / 64)).foldl (sha256Block p) sha256Init
  be32 s.a ++ be32 s.b ++ be32 s.c ++ be32 s.d ++ be32 s.e ++ be32 s.f ++ be32 s.g ++ be32 s.h

/-- The hash `sha256.New` constructs. -/
def sha256New : Digest := ⟨32, 64, sha256Sum⟩

/-! ### SHA-1 -/

/-- The five chaining words of SHA-1. -/
structure Sha1State where
  a : Nat
  b : Nat
  c : Nat
  d : Nat
  e : Nat
deriving DecidableEq

/-- The initial chaining value of SHA-1. -/
def sha1Init : Sha1State := ⟨0x67452301, 0xEFCDAB89, 0x98BADCFE, 0x10325476, 0xC3D2E1F0⟩

/-- The message schedule of SHA-1: sixteen block words extended to 80. -/
def sha1Schedule (w16 : List Nat) : List Nat :=
  (List.range 64).foldl (fun w i =>
    w ++ [rotl32 (w.getD (i + 13) 0 ^^^ w.getD (i + 8) 0 ^^^ w.getD (i + 2) 0 ^^^ w.getD i 0) 1])
    w16

/-- One round of the SHA-1 compression function. -/
def sha1Round (w : List Nat) (s : Sha1State) (i : Nat) : Sha1State :=
  let fk : Nat × Nat :=
    if i < 20 then ((s.b &&& s.c) ||| (not32 s.b &&& s.d), 0x5A827999)
    else if i < 40 then (s.b ^^^ s.c ^^^ s.d, 0x6ED9EBA1)
    else if i < 60 then (((s.b ||| s.c) &&& s.d) ||| (s.b &&& s.c), 0x8F1BBCDC)
    else (s.b ^^^ s.c ^^^ s.d, 0xCA62C1D6)
  let t := (rotl32 s.a 5 + fk.1 + s.e + w.getD i 0 + fk.2) % 2 ^ 32
  ⟨t, s.a, rotl32 s.b 30, s.c, s.d⟩

/-- The SHA-1 compression of one block into the chaining value. -/
def sha1Block (p : List Byte) (s : Sha1State) (i : Nat) : Sha1State :=
  let w := sha1Schedule (blockWords p i)
  let r := (List.range 80).foldl (sha1Round w) s
  ⟨(s.a + r.a) % 2 ^ 32, (s.b + r.b) % 2 ^ 32, (s.c + r.c) % 2 ^ 32, (s.d + r.d) % 2 ^ 32,
   (s.e + r.e) % 2 ^ 32⟩

/-- The SHA-1 checksum of `msg`. -/
def sha1Sum (msg : List Byte) : List Byte :=
  let p := shaPad msg
  let s := (List.range (p.length / 64)).foldl (sha1Block p) sha1Init
  be32 s.a ++ be32 s.b ++ be32 s.c ++ be32 s.d ++ be32 s.e

/-- The hash `sha1.New` constructs. -/
def sha1New : Digest := ⟨20, 64, sha1Sum⟩

/-! ## `crypto/hmac` and `pbkdf2.Key` -/

/-- Bytewise exclusive or of a block with a constant. -/
def xorPad (key : List Byte) (c : Nat) : List Byte := key.map (fun b => byte (b.val ^^^ c))

/-- The key block of `hmac.New(h, key)`: a key longer than the block size is
hashed first, then the key is copied into a zeroed block of `BlockSize` bytes. -/
def hmacKeyBlock (h : Digest) (key : List Byte) : List Byte :=
  let key := if key.length > h.BlockSize then h.Sum key else key
  key.take h.BlockSize ++ List.replicate (h.BlockSize - key.length) 0

/-- The value `Sum(nil)` of `hmac.New(h, key)` after `data` has been written:
`H(opad ++ H(ipad ++ data))`. -/
def hmacSum (h : Digest) (key data : List Byte) : List Byte :=
  let k := hmacKeyBlock h key
  h.Sum (xorPad k 0x5c ++ h.Sum (xorPad k 0x36 ++ data))

/-- The inner loop of `pbkdf2.Key` for one block: `count` further applications
of the PRF, each one folded into `T` by exclusive or. The state is `(T, U)`. -/
def pbkdf2Inner (h : Digest) (password : List Byte) : Nat → List Byte × List Byte →
    List Byte × List Byte
  | 0, tu => tu
  | count + 1, (t, u) =>
    let u1 := hmacSum h password u
    pbkdf2Inner h password count (List.zipWith (fun x y => byte (x.val ^^^ y.val)) t u1, u1)

/-- The block `T_block` of `pbkdf2.Key`: `U_1 = PRF(salt ++ INT(block))`, and
for `n` from 2 to `iter` the values `U_n = PRF(U_(n-1))` are folded in. For
`iter ≤ 1` the loop body does not run. -/
def pbkdf2Block (h : Digest) (password salt : List Byte) (iter : Int) (block : Nat) : List Byte :=
  let u1 := hmacSum h password (salt ++ be32 block)
  (pbkdf2Inner h password (iter - 1).toNat (u1, u1)).1

/-- `pbkdf2.Key(password, salt, iter, keyLen, h)`. -/
def pbkdf2Key (password salt : List Byte) (iter : Int) (keyLen : Nat) (h : Digest) : List Byte :=
  let hashLen := h.Size
  let numBlocks := (keyLen + hashLen - 1) / hashLen
  let dk := ((List.range numBlocks).map
    (fun i => pbkdf2Block h password salt iter (i + 1))).flatten
  dk.take keyLen

/-! ## `hasher.go` -/

/-- The constant `randomStringChars`. -/
def randomStringChars : GoString :=
  lit "abcdefghijklmnopqrstuvwxyzABCDEFGHIJKLMNOPQRSTUVWXYZ0123456789"

/-- The struct `hasher`. -/
structure hasher where
  algorithm : GoString
  iterations : Int
  digest : Digest

/-- The range of Go's `int`. -/
def isGoInt (n : Int) : Prop := -(2 ^ 63) ≤ n ∧ n < 2 ^ 63

instance (n : Int) : Decidable (isGoInt n) := by
  unfold isGoInt
  infer_instance

/-- The method `(*hasher).Encode`. -/
def hasher.Encode (h : hasher) (password salt : GoString) : GoString × Option GoError :=
  let key := pbkdf2Key password salt h.iterations 32 h.digest
  let text := EncodeToString key
  let parts := [h.algorithm, Itoa h.iterations, salt, text]
  (Join parts dollar, none)

/-- The method `(*hasher).Verify`. -/
def hasher.Verify (h : hasher) (password encoded : GoString) : Bool × Option GoError :=
  let parts := Split encoded dollar
  if parts.length ≠ 4 then (false, none)
  else
    match Atoi (parts.getD 1 []) with
    | .error err => (false, some err)
    | .ok iterations =>
      let salt := parts.getD 2 []
      let text := parts.getD 3 []
      let key := pbkdf2Key password salt iterations 32 h.digest
      let other := EncodeToString key
      (decide (text = other), none)

/-- The value of `int(math.Ceil(float64(bits) / math.Log2(float64(size))))`
when the quotient is taken exactly: the least `n` with `2^bits ≤ size^n`. At
the arguments `Salt` uses, `ceilDivLog2_eq_ceil` shows the agreement with the
ceiling of the real quotient and `ceilDivLog2_margin` that every value within
`1/4` of that quotient has the same ceiling. -/
def ceilDivLog2 (bits size : Nat) : Nat :=
  ((List.range (bits + 1)).find? (fun n => decide (2 ^ bits ≤ size ^ n))).getD 0

/-- The reader behind `rand.Read`: it fails with an error, or it delivers
bytes (`stream i` is the `i`-th byte it hands out). -/
inductive RandReader where
  | fails (err : GoError)
  | delivers (stream : Nat → Byte)

/-- The call `rand.Read(b)`: the buffer after the call and the error. On
success the whole buffer has been filled from the reader. -/
def randRead (r : RandReader) (b : List Byte) : List Byte × Option GoError :=
  match r with
  | .fails err => (b, some err)
  | .delivers stream => ((List.range b.length).map stream, none)

/-- The method `(*hasher).Salt`, reading from `r`. -/
def hasher.Salt (_h : hasher) (r : RandReader) : GoString × Option GoError :=
  let charCount := ceilDivLog2 32 randomStringChars.length
  let bytes : List Byte := List.replicate charCount 0
  match randRead r bytes with
  | (_, some err) => ([], some err)
  | (bytes, none) =>
    (bytes.map (fun b => randomStringChars.getD (b.val % randomStringChars.length) 0), none)

/-- The variable `PBKDF2PasswordHasher`. -/
def PBKDF2PasswordHasher : hasher :=
  { algorithm := lit "pbkdf2_sha256", iterations := 260000, digest := sha256New }

/-- The variable `PBKDF2SHA1PasswordHasher`. -/
def PBKDF2SHA1PasswordHasher : hasher :=
  { algorithm := lit "pbkdf2_sha1", iterations := 260000, digest := sha1New }

/-! ## `library.go` -/

/-- Assignment `m[k] = v` on a Go map, kept as an association list. -/
def mapSet (m : List (GoString × hasher)) (k : GoString) (v : hasher) :
    List (GoString × hasher) :=
  (k, v) :: m.filter (fun e => decide (e.1 ≠ k))

/-- Lookup `m[k]` on a Go map. -/
def mapGet (m : List (GoString × hasher)) (k : GoString) : Option hasher :=
  (m.find? (fun e => decide (e.1 = k))).map (fun e => e.2)

/-- The variable `hasherLibrary` after `init` has run. -/
def hasherLibrary : List (GoString × hasher) :=
  mapSet (mapSet [] (lit "pbkdf2_sha256") PBKDF2PasswordHasher)
    (lit "pbkdf2_sha1") PBKDF2SHA1PasswordHasher

/-! ## Specification-side notions used in the statements -/

/-- An ASCII decimal digit. -/
def isDigit (c : Byte) : Prop := 48 ≤ c.val ∧ c.val ≤ 57

instance (c : Byte) : Decidable (isDigit c) := by
  unfold isDigit
  infer_instance

/-- The value of the digit string `l` read in base 10 after the value `n`. -/
def decVal (n : Nat) (l : GoString) : Nat := l.foldl (fun a c => a * 10 + (c.val - 48)) n

/-- Whether a decimal literal starts with a minus sign. -/
def isNegative (s : GoString) : Bool := decide (s.head? = some 45)

/-- The literal without its optional sign. -/
def unsignedPart (s : GoString) : GoString :=
  match s with
  | [] => []
  | c :: rest => if c = 43 ∨ c = 45 then rest else s

/-- The integer a signed decimal literal denotes. -/
def intValue (s : GoString) : Int :=
  if isNegative s then - (decVal 0 (unsignedPart s) : Int) else (decVal 0 (unsignedPart s) : Int)

/-- The literal `s` is an optional sign followed by a non-empty run of decimal
digits, and the integer it denotes is in the range of `int`. -/
def isDecimalInt (s : GoString) : Prop :=
  unsignedPart s ≠ [] ∧ (∀ c ∈ unsignedPart s, isDigit c) ∧ isGoInt (intValue s)

instance (s : GoString) : Decidable (isDecimalInt s) := by
  unfold isDecimalInt
  infer_instance

/-- A digest whose `Sum` returns `Size` bytes, `Size` being positive. -/
def Digest.WellFormed (h : Digest) : Prop := 0 < h.Size ∧ ∀ m, (h.Sum m).length = h.Size

/-- The string `s` is the canonical decimal rendering of `n`: a minus sign
exactly when `n` is negative, then a non-empty run of decimal digits whose
value is the absolute value of `n`, with no leading zero unless the run is the
single digit zero. -/
def isCanonicalDecimal (s : GoString) (n : Int) : Prop :=
  ∃ ds : GoString, s = (if n < 0 then [(45 : Byte)] else []) ++ ds ∧ ds ≠ [] ∧
    (∀ c ∈ ds, isDigit c) ∧ decVal 0 ds = n.natAbs ∧ (ds.head? = some 48 → ds = [48])

/-- A hasher with the configuration of `PBKDF2PasswordHasher` and a single
iteration, for evaluation. -/
def sha256OneIteration : hasher :=
  { algorithm := lit "pbkdf2_sha256", iterations := 1, digest := sha256New }

/-- The number of byte values `b` that the map of `Salt`,
`b ↦ randomStringChars[int(b) % len(randomStringChars)]`, sends to the
character `c`. -/
def preimageCount (c : Byte) : Nat :=
  ((List.finRange 256).filter
    (fun b => decide (randomStringChars.getD (b.val % randomStringChars.length) 0 = c))).length

/-! ## Lemmas on `Split` and `Join` -/

theorem Split_ne_nil (s : GoString) (sep : Byte) : Split s sep ≠ [] := by
  induction s with
  | nil => simp [Split]
  | cons c s ih =>
    unfold Split
    split
    · simp
    · split <;> simp

theorem Split_of_not_mem (a : GoString) (sep : Byte) (h : sep ∉ a) : Split a sep = [a] := by
  induction a with
  | nil => simp [Split]
  | cons c a ih =>
    have hc : c ≠ sep := fun e => h (by simp [e])
    have ha : sep ∉ a := fun e => h (by simp [e])
    unfold Split
    rw [if_neg hc, ih ha]

theorem Split_append_sep (a rest : GoString) (sep : Byte) (h : sep ∉ a) :
    Split (a ++ sep :: rest) sep = a :: Split rest sep := by
  induction a with
  | nil => simp [Split]
  | cons c a ih =>
    have hc : c ≠ sep := fun e => h (by simp [e])
    have ha : sep ∉ a := fun e => h (by simp [e])
    rw [List.cons_append, Split, if_neg hc, ih ha]

theorem Split_length (s : GoString) (sep : Byte) : (Split s sep).length = s.count sep + 1 := by
  induction s with
  | nil => simp [Split]
  | cons c s ih =>
    unfold Split
    by_cases hc : c = sep
    · rw [if_pos hc]
      subst hc
      simp [ih]
    · rw [if_neg hc]
      have hne := Split_ne_nil s sep
      cases hsp : Split s sep with
      | nil => exact absurd hsp hne
      | cons p ps =>
        rw [hsp] at ih
        simp only [List.length_cons] at ih ⊢
        rw [List.count_cons_of_ne (Ne.symm hc)]
        omega

theorem Join_four (a b c d : GoString) (sep : Byte) :
    Join [a, b, c, d] sep = a ++ sep :: (b ++ sep :: (c ++ sep :: d)) := by
  simp [Join]

theorem Split_Join_four (a b c d : GoString) (sep : Byte)
    (ha : sep ∉ a) (hb : sep ∉ b) (hc : sep ∉ c) (hd : sep ∉ d) :
    Split (Join [a, b, c, d] sep) sep = [a, b, c, d] := by
  rw [Join_four, Split_append_sep _ _ _ ha, Split_append_sep _ _ _ hb,
    Split_append_sep _ _ _ hc, Split_of_not_mem _ _ hd]

theorem count_Join_four (a b c d : GoString) (sep : Byte) :
    (Join [a, b, c, d] sep).count sep = a.count sep + b.count sep + c.count sep + d.count sep + 3 := by
  rw [Join_four]
  simp only [List.count_append, List.count_cons_self]
  omega

/-! ## Lemmas on `Itoa` and `Atoi` -/

theorem digitByte_val (d : Nat) : (digitByte d).val = 48 + d % 10 := by
  simp only [digitByte, byte]
  omega

theorem digitByte_ne_dollar (d : Nat) : digitByte d ≠ dollar := by
  intro h
  have := congrArg Fin.val h
  rw [digitByte_val] at this
  simp [dollar] at this
  omega

theorem formatBits_acc (fuel u : Nat) (acc : GoString) :
    formatBits fuel u acc = formatBits fuel u [] ++ acc := by
  induction fuel generalizing u acc with
  | zero => simp [formatBits]
  | succ fuel ih =>
    simp only [formatBits]
    split
    · simp
    · rw [ih, ih (u / 10) [_]]
      simp

theorem decVal_append (n : Nat) (l1 l2 : GoString) :
    decVal n (l1 ++ l2) = decVal (decVal n l1) l2 := by
  simp [decVal, List.foldl_append]

theorem le_decVal (n : Nat) (l : GoString) : n ≤ decVal n l := by
  induction l generalizing n with
  | nil => simp [decVal]
  | cons c l ih =>
    have := ih (n * 10 + (c.val - 48))
    simp only [decVal, List.foldl_cons] at this ⊢
    omega

/-- With enough fuel `formatBits` writes a non-empty run of digits whose value
is `u`. -/
theorem formatBits_spec (fuel u : Nat) (hf : u < fuel) :
    formatBits fuel u [] ≠ [] ∧ (∀ c ∈ formatBits fuel u [], isDigit c) ∧
      decVal 0 (formatBits fuel u []) = u := by
  induction fuel generalizing u with
  | zero => omega
  | succ fuel ih =>
    simp only [formatBits]
    split
    · rename_i hu
      refine ⟨by simp, ?_, ?_⟩
      · intro c hc
        simp only [List.mem_singleton] at hc
        subst hc
        simp only [isDigit, digitByte_val]
        omega
      · simp only [decVal, List.foldl_cons, List.foldl_nil, digitByte_val]
        omega
    · rename_i hu
      have hlt : u / 10 < fuel := by omega
      obtain ⟨h1, h2, h3⟩ := ih (u / 10) hlt
      rw [formatBits_acc]
      refine ⟨by simp, ?_, ?_⟩
      · intro c hc
        simp only [List.mem_append, List.mem_singleton] at hc
        rcases hc with hc | hc
        · exact h2 c hc
        · subst hc
          simp only [isDigit, digitByte_val]
          omega
      · rw [decVal_append, h3]
        simp only [decVal, List.foldl_cons, List.foldl_nil, digitByte_val]
        omega

theorem parseUintLoop_ok (s0 : GoString) (n : Nat) (l : GoString)
    (hd : ∀ c ∈ l, isDigit c) (hv : decVal n l < 2 ^ 64) :
    parseUintLoop s0 n l = .ok (decVal n l) := by
  induction l generalizing n with
  | nil => simp [parseUintLoop, decVal]
  | cons c l ih =>
    have hc : isDigit c := hd c (by simp)
    have hl : ∀ c ∈ l, isDigit c := fun x hx => hd x (by simp [hx])
    have hstep : decVal n (c :: l) = decVal (n * 10 + (c.val - 48)) l := by
      simp [decVal]
    rw [hstep] at hv ⊢
    have hle := le_decVal (n * 10 + (c.val - 48)) l
    have hn1 : n * 10 + (c.val - 48) < 2 ^ 64 := lt_of_le_of_lt hle hv
    have hmod : (n * 10 + (c.val - 48)) % 2 ^ 64 = n * 10 + (c.val - 48) :=
      Nat.mod_eq_of_lt hn1
    have hmod10 : n * 10 % 2 ^ 64 = n * 10 := by
      norm_num at hn1 ⊢
      omega
    unfold isDigit at hc
    rw [parseUintLoop, if_pos hc]
    have h1 : ¬ (n ≥ (2 ^ 64 - 1) / 10 + 1) := by
      norm_num at hn1 ⊢
      omega
    rw [if_neg h1]
    simp only [hmod10, hmod]
    have h2 : ¬ (n * 10 + (c.val - 48) < n * 10 ∨ n * 10 + (c.val - 48) > 2 ^ 64 - 1) := by
      norm_num at hn1 ⊢
      omega
    rw [if_neg h2]
    exact ih _ hl hv

theorem parseUintLoop_inv (s0 : GoString) (n : Nat) (l : GoString) (v : Nat) (hn : n < 2 ^ 64)
    (h : parseUintLoop s0 n l = .ok v) :
    (∀ c ∈ l, isDigit c) ∧ v = decVal n l ∧ v < 2 ^ 64 := by
  induction l generalizing n with
  | nil =>
    simp only [parseUintLoop, Except.ok.injEq] at h
    subst h
    exact ⟨by simp, by simp [decVal], hn⟩
  | cons c l ih =>
    rw [parseUintLoop] at h
    split at h
    · rename_i hc
      split at h
      · simp at h
      · rename_i h1
        simp only at h
        split at h
        · simp at h
        · rename_i h2
          have hlt : (n * 10 % 2 ^ 64 + (c.val - 48)) % 2 ^ 64 < 2 ^ 64 :=
            Nat.mod_lt _ (by norm_num)
          obtain ⟨i1, i2, i3⟩ := ih _ hlt h
          have hmod : (n * 10 % 2 ^ 64 + (c.val - 48)) % 2 ^ 64 = n * 10 + (c.val - 48) := by
            norm_num at h1 h2 ⊢
            omega
          rw [hmod] at i2
          refine ⟨?_, ?_, i3⟩
          · intro x hx
            simp only [List.mem_cons] at hx
            rcases hx with hx | hx
            · subst hx
              exact hc
            · exact i1 x hx
          · rw [i2]
            simp [decVal]
    · simp at h

theorem ParseUint_ok_iff (s0 body : GoString) (un : Nat) :
    ParseUint s0 body = .ok un ↔
      body ≠ [] ∧ (∀ c ∈ body, isDigit c) ∧ un = decVal 0 body ∧ un < 2 ^ 64 := by
  constructor
  · intro h
    cases body with
    | nil => simp [ParseUint] at h
    | cons c l =>
      simp only [ParseUint] at h
      obtain ⟨h1, h2, h3⟩ := parseUintLoop_inv s0 0 (c :: l) un (by norm_num) h
      exact ⟨by simp, h1, h2, h3⟩
  · rintro ⟨h0, h1, h2, h3⟩
    cases body with
    | nil => exact absurd rfl h0
    | cons c l =>
      simp only [ParseUint]
      rw [h2] at h3 ⊢
      exact parseUintLoop_ok s0 0 (c :: l) h1 h3

theorem ParseUint_error_or_ok (s0 body : GoString) :
    (∃ e, ParseUint s0 body = .error e) ∨ (∃ un, ParseUint s0 body = .ok un) := by
  cases h : ParseUint s0 body with
  | error e => exact Or.inl ⟨e, rfl⟩
  | ok un => exact Or.inr ⟨un, rfl⟩

/-- The result of `Atoi` on a valid literal. -/
theorem Atoi_of_isDecimalInt (s : GoString) (h : isDecimalInt s) : Atoi s = .ok (intValue s) := by
  obtain ⟨h0, h1, h2, h3⟩ := h
  cases s with
  | nil => simp [unsignedPart] at h0
  | cons c rest =>
    have hbody : unsignedPart (c :: rest) = if c = 43 ∨ c = 45 then rest else c :: rest := rfl
    have hneg : isNegative (c :: rest) = decide (c = 45) := by simp [isNegative]
    simp only [intValue, hneg, hbody] at h2 h3 ⊢
    rw [hbody] at h0 h1
    simp only [Atoi]
    generalize (if c = 43 ∨ c = 45 then rest else c :: rest) = body at h0 h1 h2 h3 ⊢
    by_cases hc : c = 45
    · simp only [hc, decide_True, if_true] at h2 h3 ⊢
      have hlt : decVal 0 body < 2 ^ 64 := by
        norm_num at h2 h3 ⊢
        omega
      have hp := (ParseUint_ok_iff (45 :: rest) body _).2 ⟨h0, h1, rfl, hlt⟩
      simp only [hp]
      norm_num at h2 h3 ⊢
      omega
    · simp only [hc, decide_False] at h2 h3 ⊢
      have hlt : decVal 0 body < 2 ^ 64 := by
        norm_num at h2 h3 ⊢
        omega
      have hp := (ParseUint_ok_iff (c :: rest) body _).2 ⟨h0, h1, rfl, hlt⟩
      simp only [hp]
      norm_num at h2 h3 ⊢
      omega

/-- A successful `Atoi` was given a valid literal and returns its value. -/
theorem isDecimalInt_of_Atoi (s : GoString) (v : Int) (h : Atoi s = .ok v) :
    isDecimalInt s ∧ v = intValue s := by
  cases s with
  | nil => simp [Atoi] at h
  | cons c rest =>
    have hbody : unsignedPart (c :: rest) = if c = 43 ∨ c = 45 then rest else c :: rest := rfl
    have hneg : isNegative (c :: rest) = decide (c = 45) := by simp [isNegative]
    simp only [Atoi] at h
    rcases ParseUint_error_or_ok (c :: rest) (if c = 43 ∨ c = 45 then rest else c :: rest) with
      ⟨e, he⟩ | ⟨un, hun⟩
    · rw [he] at h
      simp at h
    · rw [hun] at h
      obtain ⟨p0, p1, p2, p3⟩ := (ParseUint_ok_iff _ _ _).1 hun
      simp only [isDecimalInt, isGoInt, intValue, hneg, hbody]
      rw [← p2]
      by_cases hc : c = 45
      · simp only [hc, decide_True, if_true] at h ⊢
        split at h
        · simp at h
        · split at h
          · simp at h
          · rename_i q1 q2
            simp only [Except.ok.injEq] at h
            refine ⟨⟨by simpa [hc] using p0, by simpa [hc] using p1, ?_⟩, h.symm⟩
            norm_num at q1 q2 ⊢
            omega
      · simp only [hc, decide_False] at h ⊢
        split at h
        · simp at h
        · split at h
          · simp at h
          · rename_i q1 q2
            simp only [Except.ok.injEq] at h
            refine ⟨⟨by simpa [hc] using p0, by simpa [hc] using p1, ?_⟩, by simpa using h.symm⟩
            norm_num at q1 q2 ⊢
            omega

/-- An invalid literal makes `Atoi` return an error. -/
theorem Atoi_error_of_not_isDecimalInt (s : GoString) (h : ¬ isDecimalInt s) :
    ∃ e, Atoi s = .error e := by
  cases hA : Atoi s with
  | error e => exact ⟨e, rfl⟩
  | ok v => exact absurd (isDecimalInt_of_Atoi s v hA).1 h

theorem Itoa_isDecimalInt (n : Int) (hn : isGoInt n) :
    isDecimalInt (Itoa n) ∧ intValue (Itoa n) = n := by
  obtain ⟨f1, f2, f3⟩ := formatBits_spec (n.natAbs + 1) n.natAbs (Nat.lt_succ_self _)
  unfold isGoInt at hn
  by_cases hneg : n < 0
  · have hI : Itoa n = (45 : Byte) :: formatBits (n.natAbs + 1) n.natAbs [] := by
      simp [Itoa, hneg]
    have hb : unsignedPart (Itoa n) = formatBits (n.natAbs + 1) n.natAbs [] := by
      rw [hI]
      simp [unsignedPart]
    have hs : isNegative (Itoa n) = true := by
      rw [hI]
      simp [isNegative]
    have hv : intValue (Itoa n) = n := by
      simp only [intValue, hs, hb, f3, if_true]
      omega
    refine ⟨⟨by rw [hb]; exact f1, by rw [hb]; exact f2, ?_⟩, hv⟩
    rw [hv]
    exact hn
  · have hI : Itoa n = formatBits (n.natAbs + 1) n.natAbs [] := by
      simp [Itoa, hneg]
    obtain ⟨c, rest, hcr⟩ := List.exists_cons_of_ne_nil f1
    have hcd : isDigit c := f2 c (by rw [hcr]; simp)
    have hc43 : c ≠ 43 := by
      intro e
      rw [e] at hcd
      exact absurd hcd (by decide)
    have hc45 : c ≠ 45 := by
      intro e
      rw [e] at hcd
      exact absurd hcd (by decide)
    have hb : unsignedPart (Itoa n) = formatBits (n.natAbs + 1) n.natAbs [] := by
      rw [hI, hcr]
      simp [unsignedPart, hc43, hc45]
    have hs : isNegative (Itoa n) = false := by
      rw [hI, hcr]
      simp [isNegative, hc45]
    have hv : intValue (Itoa n) = n := by
      simp only [intValue, hs, hb, f3]
      simp
      omega
    refine ⟨⟨by rw [hb]; exact f1, by rw [hb]; exact f2, ?_⟩, hv⟩
    rw [hv]
    exact hn

theorem Atoi_Itoa (n : Int) (hn : isGoInt n) : Atoi (Itoa n) = .ok n := by
  obtain ⟨h1, h2⟩ := Itoa_isDecimalInt n hn
  rw [Atoi_of_isDecimalInt _ h1, h2]

theorem dollar_not_mem_formatBits (fuel u : Nat) : dollar ∉ formatBits fuel u [] := by
  induction fuel generalizing u with
  | zero => simp [formatBits]
  | succ fuel ih =>
    simp only [formatBits]
    split
    · simp only [List.mem_singleton]
      exact fun e => digitByte_ne_dollar _ e.symm
    · rw [formatBits_acc]
      simp only [List.mem_append, List.mem_singleton, not_or]
      exact ⟨ih _, fun e => digitByte_ne_dollar _ e.symm⟩

theorem dollar_not_mem_Itoa (n : Int) : dollar ∉ Itoa n := by
  unfold Itoa
  split
  · simp only [List.mem_cons, not_or]
    exact ⟨by decide, dollar_not_mem_formatBits _ _⟩
  · exact dollar_not_mem_formatBits _ _

/-! ## Lemmas on `EncodeToString` -/

theorem b64char_eq (v : Nat) : b64char v = encodeStd.getD (v % 64) 0 := by
  unfold b64char
  rw [show (0x3F : Nat) = 2 ^ 6 - 1 from rfl, Nat.and_pow_two_sub_one_eq_mod]

theorem encodeStd_props : ∀ i, i < 64 →
    encodeStd.getD i 0 ≠ dollar ∧ encodeStd.getD i 0 ≠ 61 ∧
      encodeStd.indexOf (encodeStd.getD i 0) = i := by
  decide

theorem b64char_ne_dollar (v : Nat) : b64char v ≠ dollar := by
  rw [b64char_eq]
  exact (encodeStd_props _ (Nat.mod_lt _ (by decide))).1

theorem b64char_ne_pad (v : Nat) : b64char v ≠ 61 := by
  rw [b64char_eq]
  exact (encodeStd_props _ (Nat.mod_lt _ (by decide))).2.1

theorem b64char_inj (v w : Nat) (h : b64char v = b64char w) : v % 64 = w % 64 := by
  rw [b64char_eq, b64char_eq] at h
  have hv := (encodeStd_props _ (Nat.mod_lt v (by decide))).2.2
  have hw := (encodeStd_props _ (Nat.mod_lt w (by decide))).2.2
  rw [← hv, h, hw]

theorem dollar_not_mem_EncodeToString (l : List Byte) : dollar ∉ EncodeToString l := by
  induction l using EncodeToString.induct with
  | case1 => simp [EncodeToString]
  | case2 a =>
    simp only [EncodeToString, List.mem_cons, List.mem_singleton, not_or, List.not_mem_nil,
      not_false_eq_true, and_true]
    exact ⟨(b64char_ne_dollar _).symm, (b64char_ne_dollar _).symm, by decide, by decide⟩
  | case3 a b =>
    simp only [EncodeToString, List.mem_cons, List.mem_singleton, not_or, List.not_mem_nil,
      not_false_eq_true, and_true]
    exact ⟨(b64char_ne_dollar _).symm, (b64char_ne_dollar _).symm, (b64char_ne_dollar _).symm,
      by decide⟩
  | case4 a b c rest ih =>
    simp only [EncodeToString, List.mem_cons, not_or]
    exact ⟨(b64char_ne_dollar _).symm, (b64char_ne_dollar _).symm, (b64char_ne_dollar _).symm,
      (b64char_ne_dollar _).symm, ih⟩

theorem pack2 (a b : Nat) (hb : b < 256) : a <<< 16 ||| b <<< 8 = a * 65536 + b * 256 := by
  have h1 : b <<< 8 < 2 ^ 16 := by
    rw [Nat.shiftLeft_eq]
    norm_num
    omega
  have h2 := Nat.mul_add_lt_is_or h1 a
  rw [Nat.shiftLeft_eq a 16, Nat.mul_comm a (2 ^ 16), ← h2, Nat.shiftLeft_eq]

theorem pack3 (a b c : Nat) (hb : b < 256) (hc : c < 256) :
    a <<< 16 ||| b <<< 8 ||| c = a * 65536 + b * 256 + c := by
  rw [pack2 a b hb]
  have h1 : a * 65536 + b * 256 = 2 ^ 8 * (a * 256 + b) := by
    norm_num
    omega
  have h2 : c < 2 ^ 8 := by
    norm_num
    exact hc
  rw [h1, ← Nat.mul_add_lt_is_or h2]

theorem sextets_inj (v w : Nat) (hv : v < 2 ^ 24) (hw : w < 2 ^ 24)
    (h1 : (v >>> 18) % 64 = (w >>> 18) % 64) (h2 : (v >>> 12) % 64 = (w >>> 12) % 64)
    (h3 : (v >>> 6) % 64 = (w >>> 6) % 64) (h4 : v % 64 = w % 64) : v = w := by
  simp only [Nat.shiftRight_eq_div_pow] at h1 h2 h3
  norm_num at hv hw h1 h2 h3
  omega

theorem EncodeToString_injective (l1 l2 : List Byte)
    (h : EncodeToString l1 = EncodeToString l2) : l1 = l2 := by
  induction l1 using EncodeToString.induct generalizing l2 with
  | case1 =>
    match l2 with
    | [] => rfl
    | [_] => simp [EncodeToString] at h
    | [_, _] => simp [EncodeToString] at h
    | _ :: _ :: _ :: _ => simp [EncodeToString] at h
  | case2 a =>
    match l2 with
    | [] => simp [EncodeToString] at h
    | [a2] =>
      simp only [EncodeToString, List.cons.injEq, and_true] at h
      have e1 := b64char_inj _ _ h.1
      have e2 := b64char_inj _ _ h.2
      simp only [Nat.shiftLeft_eq, Nat.shiftRight_eq_div_pow] at e1 e2
      norm_num at e1 e2
      have : a.val = a2.val := by omega
      simp [Fin.ext this]
    | [_, _] =>
      simp only [EncodeToString, List.cons.injEq, and_true] at h
      exact absurd h.2.2.symm (b64char_ne_pad _)
    | _ :: _ :: _ :: _ =>
      simp only [EncodeToString, List.cons.injEq] at h
      exact absurd h.2.2.1.symm (b64char_ne_pad _)
  | case3 a b =>
    match l2 with
    | [] => simp [EncodeToString] at h
    | [_] =>
      simp only [EncodeToString, List.cons.injEq, and_true] at h
      exact absurd h.2.2 (b64char_ne_pad _)
    | [a2, b2] =>
      simp only [EncodeToString, List.cons.injEq, and_true] at h
      have e1 := b64char_inj _ _ h.1
      have e2 := b64char_inj _ _ h.2.1
      have e3 := b64char_inj _ _ h.2.2
      rw [pack2 _ _ b.isLt, pack2 _ _ b2.isLt] at e1 e2 e3
      simp only [Nat.shiftRight_eq_div_pow] at e1 e2 e3
      norm_num at e1 e2 e3
      have ha : a.val = a2.val := by omega
      have hb : b.val = b2.val := by omega
      simp [Fin.ext ha, Fin.ext hb]
    | _ :: _ :: _ :: _ =>
      simp only [EncodeToString, List.cons.injEq] at h
      exact absurd h.2.2.2.1.symm (b64char_ne_pad _)
  | case4 a b c rest ih =>
    match l2 with
    | [] => simp [EncodeToString] at h
    | [_] =>
      simp only [EncodeToString, List.cons.injEq] at h
      exact absurd h.2.2.1 (b64char_ne_pad _)
    | [_, _] =>
      simp only [EncodeToString, List.cons.injEq] at h
      exact absurd h.2.2.2.1 (b64char_ne_pad _)
    | a2 :: b2 :: c2 :: rest2 =>
      simp only [EncodeToString, List.cons.injEq] at h
      obtain ⟨h1, h2, h3, h4, h5⟩ := h
      have e1 := b64char_inj _ _ h1
      have e2 := b64char_inj _ _ h2
      have e3 := b64char_inj _ _ h3
      have e4 := b64char_inj _ _ h4
      rw [pack3 _ _ _ b.isLt c.isLt, pack3 _ _ _ b2.isLt c2.isLt] at e1 e2 e3 e4
      simp only [Nat.shiftRight_eq_div_pow] at e1 e2 e3
      norm_num at e1 e2 e3 e4
      have ha : a.val = a2.val := by omega
      have hb : b.val = b2.val := by omega
      have hc : c.val = c2.val := by omega
      rw [Fin.ext ha, Fin.ext hb, Fin.ext hc, ih rest2 h5]

/-! ## Lemmas on `hmac` and `pbkdf2.Key` -/

theorem sha256New_wellFormed : sha256New.WellFormed := by
  refine ⟨by decide, fun m => ?_⟩
  simp [sha256New, sha256Sum, be32]

theorem sha1New_wellFormed : sha1New.WellFormed := by
  refine ⟨by decide, fun m => ?_⟩
  simp [sha1New, sha1Sum, be32]

theorem hmacSum_length (h : Digest) (hw : h.WellFormed) (key data : List Byte) :
    (hmacSum h key data).length = h.Size := by
  simp only [hmacSum]
  exact hw.2 _

theorem pbkdf2Inner_length (h : Digest) (hw : h.WellFormed) (password : List Byte) (count : Nat)
    (t u : List Byte) (ht : t.length = h.Size) :
    (pbkdf2Inner h password count (t, u)).1.length = h.Size := by
  induction count generalizing t u with
  | zero => simpa [pbkdf2Inner] using ht
  | succ count ih =>
    simp only [pbkdf2Inner]
    apply ih
    simp [ht, hmacSum_length h hw]

theorem pbkdf2Block_length (h : Digest) (hw : h.WellFormed) (password salt : List Byte)
    (iter : Int) (block : Nat) : (pbkdf2Block h password salt iter block).length = h.Size := by
  simp only [pbkdf2Block]
  exact pbkdf2Inner_length h hw _ _ _ _ (hmacSum_length h hw _ _)

theorem length_flatten_of_const (L : List (List Byte)) (k : Nat) (hL : ∀ x ∈ L, x.length = k) :
    L.flatten.length = L.length * k := by
  induction L with
  | nil => simp
  | cons x L ih =>
    have h1 : x.length = k := hL x (by simp)
    have h2 := ih (fun y hy => hL y (by simp [hy]))
    simp only [List.flatten_cons, List.length_append, List.length_cons, h1, h2]
    ring

/-- The derived key has exactly `keyLen` bytes. -/
theorem pbkdf2Key_length (password salt : List Byte) (iter : Int) (keyLen : Nat) (h : Digest)
    (hw : h.WellFormed) : (pbkdf2Key password salt iter keyLen h).length = keyLen := by
  simp only [pbkdf2Key, List.length_take]
  rw [length_flatten_of_const _ h.Size]
  · simp only [List.length_map, List.length_range]
    apply Nat.min_eq_left
    have hpos := hw.1
    have h1 := Nat.div_add_mod (keyLen + h.Size - 1) h.Size
    have h2 := Nat.mod_lt (keyLen + h.Size - 1) hpos
    rw [Nat.mul_comm] at h1
    generalize (keyLen + h.Size - 1) / h.Size * h.Size = q at h1 ⊢
    omega
  · intro x hx
    simp only [List.mem_map, List.mem_range] at hx
    obtain ⟨i, _, rfl⟩ := hx
    exact pbkdf2Block_length h hw _ _ _ _

/-- The key of `hmac.New` does not distinguish a key from the same key with a
zero byte appended, as long as both fit into the block. -/
theorem hmacKeyBlock_append_zero (h : Digest) (key : List Byte)
    (hk : key.length + 1 ≤ h.BlockSize) : hmacKeyBlock h (key ++ [0]) = hmacKeyBlock h key := by
  have h1 : ¬ (key ++ [0]).length > h.BlockSize := by
    simp only [List.length_append, List.length_singleton]
    omega
  have h2 : ¬ key.length > h.BlockSize := by omega
  simp only [hmacKeyBlock, if_neg h1, if_neg h2]
  rw [List.take_of_length_le (by simp; omega), List.take_of_length_le (by omega)]
  simp only [List.length_append, List.length_singleton, List.append_assoc, List.singleton_append]
  congr 1
  have h3 : h.BlockSize - key.length = (h.BlockSize - (key.length + 1)) + 1 := by omega
  rw [h3, List.replicate_succ]

theorem hmacSum_congr (h : Digest) (k1 k2 : List Byte)
    (hk : hmacKeyBlock h k1 = hmacKeyBlock h k2) (data : List Byte) :
    hmacSum h k1 data = hmacSum h k2 data := by
  simp only [hmacSum, hk]

theorem pbkdf2Inner_congr (h : Digest) (k1 k2 : List Byte)
    (hk : hmacKeyBlock h k1 = hmacKeyBlock h k2) (count : Nat) (tu : List Byte × List Byte) :
    pbkdf2Inner h k1 count tu = pbkdf2Inner h k2 count tu := by
  induction count generalizing tu with
  | zero => simp [pbkdf2Inner]
  | succ count ih =>
    obtain ⟨t, u⟩ := tu
    simp only [pbkdf2Inner, hmacSum_congr h k1 k2 hk, ih]

/-- Passwords with the same HMAC key block derive the same key. -/
theorem pbkdf2Key_congr (h : Digest) (k1 k2 : List Byte)
    (hk : hmacKeyBlock h k1 = hmacKeyBlock h k2) (salt : List Byte) (iter : Int) (keyLen : Nat) :
    pbkdf2Key k1 salt iter keyLen h = pbkdf2Key k2 salt iter keyLen h := by
  simp only [pbkdf2Key, pbkdf2Block, hmacSum_congr h k1 k2 hk, pbkdf2Inner_congr h k1 k2 hk]

/-! ## Lemmas on `Encode` and `Verify` -/

theorem Verify_of_length_ne (h : hasher) (password encoded : GoString)
    (hl : (Split encoded dollar).length ≠ 4) : h.Verify password encoded = (false, none) := by
  simp only [hasher.Verify, if_pos hl]

theorem Verify_of_fields_error (h : hasher) (password encoded a b c d : GoString)
    (hs : Split encoded dollar = [a, b, c, d]) (err : GoError) (he : Atoi b = .error err) :
    h.Verify password encoded = (false, some err) := by
  simp [hasher.Verify, hs, he]

theorem Verify_of_fields_ok (h : hasher) (password encoded a b c d : GoString)
    (hs : Split encoded dollar = [a, b, c, d]) (n : Int) (hn : Atoi b = .ok n) :
    h.Verify password encoded =
      (decide (d = EncodeToString (pbkdf2Key password c n 32 h.digest)), none) := by
  simp [hasher.Verify, hs, hn]

theorem fields_of_length_four (encoded : GoString) (hl : (Split encoded dollar).length = 4) :
    ∃ a b c d, Split encoded dollar = [a, b, c, d] := by
  match hs : Split encoded dollar with
  | [a, b, c, d] => exact ⟨a, b, c, d, rfl⟩
  | [] => simp [hs] at hl
  | [_] => simp [hs] at hl
  | [_, _] => simp [hs] at hl
  | [_, _, _] => simp [hs] at hl
  | _ :: _ :: _ :: _ :: _ :: _ => simp [hs] at hl

theorem Encode_eq (h : hasher) (password salt : GoString) :
    h.Encode password salt =
      (h.algorithm ++ dollar :: (Itoa h.iterations ++ dollar :: (salt ++ dollar ::
        EncodeToString (pbkdf2Key password salt h.iterations 32 h.digest))), none) := by
  simp only [hasher.Encode, Join_four]

/-- The credential `Encode` writes has three delimiters more than the algorithm
name and the salt contain. -/
theorem count_dollar_Encode (h : hasher) (password salt : GoString) :
    (h.Encode password salt).1.count dollar =
      h.algorithm.count dollar + salt.count dollar + 3 := by
  simp only [hasher.Encode, count_Join_four]
  rw [List.count_eq_zero_of_not_mem (dollar_not_mem_Itoa _),
    List.count_eq_zero_of_not_mem (dollar_not_mem_EncodeToString _)]
  omega

/-- What any hasher `v` answers on a credential written by `h` with a salt and
an algorithm name free of the delimiter. -/
theorem Verify_Encode (h v : hasher) (p1 p2 salt : GoString) (halg : dollar ∉ h.algorithm)
    (hit : isGoInt h.iterations) (hsalt : dollar ∉ salt) :
    v.Verify p2 (h.Encode p1 salt).1 =
      (decide (EncodeToString (pbkdf2Key p1 salt h.iterations 32 h.digest) =
        EncodeToString (pbkdf2Key p2 salt h.iterations 32 v.digest)), none) := by
  have hs : Split (h.Encode p1 salt).1 dollar =
      [h.algorithm, Itoa h.iterations, salt,
        EncodeToString (pbkdf2Key p1 salt h.iterations 32 h.digest)] := by
    simp only [hasher.Encode]
    exact Split_Join_four _ _ _ _ _ halg (dollar_not_mem_Itoa _) hsalt
      (dollar_not_mem_EncodeToString _)
  exact Verify_of_fields_ok v p2 _ _ _ _ _ hs _ (Atoi_Itoa _ hit)

/-! ## The claims -/

/-- C1 (round trip). For every hasher whose algorithm name is free of `'$'` and
whose iteration count is a Go `int`, every password and every salt free of
`'$'`, `Verify(P, Encode(P, S))` on the same instance returns `(true, nil)`. -/
theorem verify_encode_roundtrip (h : hasher) (password salt : GoString)
    (halg : dollar ∉ h.algorithm) (hit : isGoInt h.iterations) (hsalt : dollar ∉ salt) :
    h.Verify password (h.Encode password salt).1 = (true, none) := by
  rw [Verify_Encode h h password password salt halg hit hsalt]
  simp

/-- C1 at the two preconfigured hashers, password `hunter2`, salt `aB3xK9`. -/
theorem verify_encode_roundtrip_witness :
    (dollar ∉ PBKDF2PasswordHasher.algorithm ∧ isGoInt PBKDF2PasswordHasher.iterations ∧
      dollar ∉ lit "aB3xK9" ∧
      PBKDF2PasswordHasher.Verify (lit "hunter2")
        (PBKDF2PasswordHasher.Encode (lit "hunter2") (lit "aB3xK9")).1 = (true, none)) ∧
    (dollar ∉ PBKDF2SHA1PasswordHasher.algorithm ∧ isGoInt PBKDF2SHA1PasswordHasher.iterations ∧
      PBKDF2SHA1PasswordHasher.Verify (lit "hunter2")
        (PBKDF2SHA1PasswordHasher.Encode (lit "hunter2") (lit "aB3xK9")).1 = (true, none)) :=
  ⟨⟨by decide, by decide, by decide,
      verify_encode_roundtrip PBKDF2PasswordHasher (lit "hunter2") (lit "aB3xK9")
        (by decide) (by decide) (by decide)⟩,
    ⟨by decide, by decide,
      verify_encode_roundtrip PBKDF2SHA1PasswordHasher (lit "hunter2") (lit "aB3xK9")
        (by decide) (by decide) (by decide)⟩⟩

/-- C2, refuted as stated: the distinct passwords `p` and `p\x00` (HMAC pads
its key with zero bytes) are not told apart; `Verify` of the second against a
credential of the first returns `(true, nil)`. -/
theorem verify_distinct_passwords_true :
    lit "p" ≠ lit "p" ++ [0] ∧
      PBKDF2PasswordHasher.Verify (lit "p" ++ [0])
        (PBKDF2PasswordHasher.Encode (lit "p") (lit "salt")).1 = (true, none) := by
  refine ⟨by decide, ?_⟩
  rw [Verify_Encode PBKDF2PasswordHasher PBKDF2PasswordHasher (lit "p") (lit "p" ++ [0])
    (lit "salt") (by decide) (by decide) (by decide)]
  rw [pbkdf2Key_congr PBKDF2PasswordHasher.digest (lit "p" ++ [0]) (lit "p")
    (hmacKeyBlock_append_zero _ _ (by decide))]
  simp

/-- C2 as amended. For every hasher, all passwords `P1`, `P2` and every salt
such that the 32-byte keys derived from `P1` and from `P2` (with that salt and
the hasher's iteration count and digest) differ, `Verify(P2, Encode(P1, S))`
returns `(false, nil)`. -/
theorem verify_other_key_false (h : hasher) (p1 p2 salt : GoString) (hit : isGoInt h.iterations)
    (hk : pbkdf2Key p1 salt h.iterations 32 h.digest ≠
      pbkdf2Key p2 salt h.iterations 32 h.digest) :
    h.Verify p2 (h.Encode p1 salt).1 = (false, none) := by
  by_cases hd : dollar ∈ h.algorithm ∨ dollar ∈ salt
  · apply Verify_of_length_ne
    rw [Split_length, count_dollar_Encode]
    have : 0 < h.algorithm.count dollar + salt.count dollar := by
      rcases hd with hd | hd
      · have := List.count_pos_iff.2 hd
        omega
      · have := List.count_pos_iff.2 hd
        omega
    omega
  · simp only [not_or] at hd
    rw [Verify_Encode h h p1 p2 salt hd.1 hit hd.2]
    have hne : EncodeToString (pbkdf2Key p1 salt h.iterations 32 h.digest) ≠
        EncodeToString (pbkdf2Key p2 salt h.iterations 32 h.digest) :=
      fun e => hk (EncodeToString_injective _ _ e)
    simp [hne]

set_option maxRecDepth 100000 in
/-- C2 as amended, at SHA-256 with one iteration, passwords `password` and
`passworD`, salt `salt`. -/
theorem verify_other_key_false_witness :
    isGoInt sha256OneIteration.iterations ∧
      pbkdf2Key (lit "password") (lit "salt") sha256OneIteration.iterations 32
          sha256OneIteration.digest ≠
        pbkdf2Key (lit "passworD") (lit "salt") sha256OneIteration.iterations 32
          sha256OneIteration.digest ∧
      sha256OneIteration.Verify (lit "passworD")
        (sha256OneIteration.Encode (lit "password") (lit "salt")).1 = (false, none) :=
  ⟨by decide, by decide,
    verify_other_key_false sha256OneIteration (lit "password") (lit "passworD") (lit "salt")
      (by decide) (by decide)⟩

/-- C3 (malformed credential). When the encoded string does not split on `'$'`
into exactly four fields, equivalently when it does not contain exactly three
`'$'`, `Verify` returns `(false, nil)` for every password. -/
theorem verify_malformed (h : hasher) (password encoded : GoString)
    (hm : (Split encoded dollar).length ≠ 4 ∨ encoded.count dollar ≠ 3) :
    (Split encoded dollar).length ≠ 4 ∧ encoded.count dollar ≠ 3 ∧
      h.Verify password encoded = (false, none) := by
  have hl : (Split encoded dollar).length ≠ 4 := by
    rcases hm with hm | hm
    · exact hm
    · rw [Split_length]
      omega
  refine ⟨hl, ?_, Verify_of_length_ne h password encoded hl⟩
  rw [Split_length] at hl
  omega

/-- C3 at the strings `not-a-valid-string` (no delimiter), the empty string and
`a$b` (one delimiter). -/
theorem verify_malformed_witness :
    ((lit "not-a-valid-string").count dollar ≠ 3 ∧
      PBKDF2PasswordHasher.Verify (lit "anything") (lit "not-a-valid-string") = (false, none)) ∧
    PBKDF2PasswordHasher.Verify (lit "anything") [] = (false, none) ∧
    PBKDF2PasswordHasher.Verify (lit "anything") (lit "a$b") = (false, none) :=
  ⟨⟨by decide,
      (verify_malformed PBKDF2PasswordHasher (lit "anything") (lit "not-a-valid-string")
        (Or.inr (by decide))).2.2⟩,
    (verify_malformed PBKDF2PasswordHasher (lit "anything") [] (Or.inr (by decide))).2.2,
    (verify_malformed PBKDF2PasswordHasher (lit "anything") (lit "a$b")
      (Or.inr (by decide))).2.2⟩

/-- C4 (when `Verify` returns an error). The error of `Verify` is non-nil
exactly when the encoded string splits on `'$'` into four fields and
`strconv.Atoi` fails on the second one; the error is then the one `Atoi`
returned and the boolean is `false`. In particular the boolean is `false`
whenever the error is non-nil, and the credential
`pbkdf2_sha256$notanumber$salt$key` yields a syntax error. -/
theorem verify_error_iff (h : hasher) (password encoded : GoString) :
    ((h.Verify password encoded).2 ≠ none ↔
      ((Split encoded dollar).length = 4 ∧
        ∃ err, Atoi ((Split encoded dollar).getD 1 []) = .error err)) ∧
    (∀ err, (h.Verify password encoded).2 = some err ↔
      ((Split encoded dollar).length = 4 ∧
        Atoi ((Split encoded dollar).getD 1 []) = .error err)) ∧
    ((h.Verify password encoded).2 = none ∨ (h.Verify password encoded).1 = false) ∧
    h.Verify password (lit "pbkdf2_sha256$notanumber$salt$key") =
      (false, some (.NumError (lit "notanumber") .ErrSyntax)) := by
  have hex : h.Verify password (lit "pbkdf2_sha256$notanumber$salt$key") =
      (false, some (.NumError (lit "notanumber") .ErrSyntax)) :=
    Verify_of_fields_error h password _ (lit "pbkdf2_sha256") (lit "notanumber") (lit "salt")
      (lit "key") (by decide) _ rfl
  by_cases hl : (Split encoded dollar).length = 4
  · obtain ⟨a, b, c, d, hs⟩ := fields_of_length_four encoded hl
    cases hA : Atoi b with
    | error e =>
      rw [Verify_of_fields_error h password encoded a b c d hs e hA]
      simp [hs, hA, hex]
    | ok n =>
      rw [Verify_of_fields_ok h password encoded a b c d hs n hA]
      simp [hs, hA, hex]
  · rw [Verify_of_length_ne h password encoded hl]
    simp [hl, hex]

set_option maxRecDepth 100000 in
/-- C5, refuted as stated: the four-field credential `pbkdf2_sha256$-1$salt$key`
has the negative iterations field `-1`, and `Verify` returns a nil error on it:
it derives the key with the iteration count `-1` and compares. With the key
field that belongs to that count, `Verify` even returns `(true, nil)`. -/
theorem verify_negative_iterations_accepted :
    (Split (lit "pbkdf2_sha256$-1$salt$key") dollar).length = 4 ∧
    (Split (lit "pbkdf2_sha256$-1$salt$key") dollar).getD 1 [] = lit "-1" ∧
    Atoi (lit "-1") = .ok (-1) ∧
    PBKDF2PasswordHasher.Verify (lit "password") (lit "pbkdf2_sha256$-1$salt$key") =
      (decide (lit "key" =
        EncodeToString (pbkdf2Key (lit "password") (lit "salt") (-1) 32 sha256New)), none) ∧
    PBKDF2PasswordHasher.Verify (lit "password")
      (lit "pbkdf2_sha256$-1$salt$Eg+2z/z4syxD5yJSVsT4N6hlSMkszDVICAWYfLcL4Xs=") =
      (true, none) := by
  refine ⟨by decide, by decide, rfl, ?_, by decide⟩
  exact Verify_of_fields_ok PBKDF2PasswordHasher (lit "password") _ (lit "pbkdf2_sha256")
    (lit "-1") (lit "salt") (lit "key") (by decide) (-1) rfl

/-- C5 as amended. On a credential of four fields `a$b$c$d`: when the
iterations field `b` is not an optionally signed, non-empty run of decimal
digits denoting an integer in the range of `int`, `Verify` returns `false` with
a non-nil error; when it is such a literal (zero and negative values included),
`Verify` returns a nil error and compares `d` with the Base64 form of the key
derived with the denoted value as iteration count. -/
theorem verify_iterations_field (h : hasher) (password encoded a b c d : GoString)
    (hs : Split encoded dollar = [a, b, c, d]) :
    (¬ isDecimalInt b → ∃ err, h.Verify password encoded = (false, some err)) ∧
    (isDecimalInt b → h.Verify password encoded =
      (decide (d = EncodeToString (pbkdf2Key password c (intValue b) 32 h.digest)), none)) := by
  constructor
  · intro hb
    obtain ⟨err, he⟩ := Atoi_error_of_not_isDecimalInt b hb
    exact ⟨err, Verify_of_fields_error h password encoded a b c d hs err he⟩
  · intro hb
    exact Verify_of_fields_ok h password encoded a b c d hs _ (Atoi_of_isDecimalInt b hb)

set_option maxRecDepth 100000 in
/-- C5 as amended, at the credentials `x$-1$salt$key` (a negative count is
accepted) and `x$1e3$salt$key` (not a decimal literal: an error). -/
theorem verify_iterations_field_witness :
    (Split (lit "x$-1$salt$key") dollar = [lit "x", lit "-1", lit "salt", lit "key"] ∧
      isDecimalInt (lit "-1") ∧ intValue (lit "-1") = -1 ∧
      PBKDF2PasswordHasher.Verify (lit "password") (lit "x$-1$salt$key") =
        (decide (lit "key" = EncodeToString
          (pbkdf2Key (lit "password") (lit "salt") (intValue (lit "-1")) 32
            PBKDF2PasswordHasher.digest)), none)) ∧
    (Split (lit "x$1e3$salt$key") dollar = [lit "x", lit "1e3", lit "salt", lit "key"] ∧
      ¬ isDecimalInt (lit "1e3") ∧
      ∃ err, PBKDF2PasswordHasher.Verify (lit "password") (lit "x$1e3$salt$key") =
        (false, some err)) :=
  ⟨⟨by decide, by decide, by decide,
      (verify_iterations_field PBKDF2PasswordHasher (lit "password") (lit "x$-1$salt$key")
        (lit "x") (lit "-1") (lit "salt") (lit "key") (by decide)).2 (by decide)⟩,
    ⟨by decide, by decide,
      (verify_iterations_field PBKDF2PasswordHasher (lit "password") (lit "x$1e3$salt$key")
        (lit "x") (lit "1e3") (lit "salt") (lit "key") (by decide)).1 (by decide)⟩⟩

theorem formatBits_no_leading_zero (fuel u : Nat) (hf : u < fuel)
    (hh : (formatBits fuel u []).head? = some 48) : formatBits fuel u [] = [48] := by
  induction fuel generalizing u with
  | zero => omega
  | succ fuel ih =>
    simp only [formatBits] at hh ⊢
    split
    · rename_i hu
      rw [if_pos hu] at hh
      simpa using hh
    · rename_i hu
      rw [if_neg hu, formatBits_acc] at hh
      have hlt : u / 10 < fuel := by omega
      obtain ⟨f1, _, f3⟩ := formatBits_spec fuel (u / 10) hlt
      obtain ⟨x, xs, hx⟩ := List.exists_cons_of_ne_nil f1
      rw [hx] at hh
      simp only [List.cons_append, List.head?_cons] at hh
      have h48 := ih (u / 10) hlt (by rw [hx]; simpa using hh)
      rw [h48] at f3
      simp only [decVal, List.foldl_cons, List.foldl_nil] at f3
      have : ((48 : Byte) : Nat) = 48 := rfl
      omega

theorem Itoa_isCanonicalDecimal (n : Int) : isCanonicalDecimal (Itoa n) n := by
  obtain ⟨f1, f2, f3⟩ := formatBits_spec (n.natAbs + 1) n.natAbs (Nat.lt_succ_self _)
  refine ⟨formatBits (n.natAbs + 1) n.natAbs [], ?_, f1, f2, f3,
    formatBits_no_leading_zero _ _ (Nat.lt_succ_self _)⟩
  unfold Itoa
  split <;> simp

/-- C6 (format of `Encode`). `Encode(P, S)` returns a nil error and the string
`algorithm$iterations$S$key`, where `iterations` is `strconv.Itoa` of the
iteration count, which is its canonical decimal rendering, the salt is copied
verbatim, and `key` is the standard Base64 encoding of
`pbkdf2.Key(P, S, iterations, 32, digest)`. -/
theorem encode_format (h : hasher) (password salt : GoString) :
    h.Encode password salt =
      (h.algorithm ++ [dollar] ++ Itoa h.iterations ++ [dollar] ++ salt ++ [dollar] ++
        EncodeToString (pbkdf2Key password salt h.iterations 32 h.digest), none) ∧
    isCanonicalDecimal (Itoa h.iterations) h.iterations := by
  refine ⟨?_, Itoa_isCanonicalDecimal _⟩
  rw [Encode_eq]
  simp

/-- C7 (preconfigured instances). `PBKDF2PasswordHasher.Encode(P, S)` is
`pbkdf2_sha256$260000$` followed by `S`, `$` and the Base64 form of the 32-byte
key PBKDF2 derives with SHA-256 and 260000 iterations;
`PBKDF2SHA1PasswordHasher.Encode(P, S)` is `pbkdf2_sha1$260000$` followed by
`S`, `$` and the Base64 form of the 32-byte key PBKDF2 derives with SHA-1 and
260000 iterations. -/
theorem preconfigured_encode (password salt : GoString) :
    ((PBKDF2PasswordHasher.Encode password salt).1 =
        lit "pbkdf2_sha256$260000$" ++ salt ++ [dollar] ++
          EncodeToString (pbkdf2Key password salt 260000 32 sha256New) ∧
      (pbkdf2Key password salt 260000 32 sha256New).length = 32 ∧
      PBKDF2PasswordHasher.iterations = 260000) ∧
    ((PBKDF2SHA1PasswordHasher.Encode password salt).1 =
        lit "pbkdf2_sha1$260000$" ++ salt ++ [dollar] ++
          EncodeToString (pbkdf2Key password salt 260000 32 sha1New) ∧
      (pbkdf2Key password salt 260000 32 sha1New).length = 32 ∧
      PBKDF2SHA1PasswordHasher.iterations = 260000) := by
  have h1 : Itoa 260000 = lit "260000" := by decide
  refine ⟨⟨?_, pbkdf2Key_length _ _ _ _ _ sha256New_wellFormed, rfl⟩,
    ⟨?_, pbkdf2Key_length _ _ _ _ _ sha1New_wellFormed, rfl⟩⟩
  · rw [Encode_eq]
    simp only [PBKDF2PasswordHasher, h1]
    have h2 : lit "pbkdf2_sha256$260000$" = lit "pbkdf2_sha256" ++ dollar :: lit "260000" ++
        [dollar] := by decide
    rw [h2]
    simp
  · rw [Encode_eq]
    simp only [PBKDF2SHA1PasswordHasher, h1]
    have h2 : lit "pbkdf2_sha1$260000$" = lit "pbkdf2_sha1" ++ dollar :: lit "260000" ++
        [dollar] := by decide
    rw [h2]
    simp

/-! ## Lemmas on `Salt` -/

theorem randomStringChars_length : randomStringChars.length = 62 := by decide

theorem charCount_eq : ceilDivLog2 32 randomStringChars.length = 6 := by decide

/-- The integer `ceilDivLog2` computes for `Salt` is the ceiling of the exact
real quotient `32 / log2 62` that the floating-point expression of the source
approximates. -/
theorem ceilDivLog2_eq_ceil :
    (ceilDivLog2 32 randomStringChars.length : ℤ) = ⌈(32 : ℝ) / Real.logb 2 62⌉ := by
  rw [charCount_eq]
  symm
  rw [Int.ceil_eq_iff]
  have hL : 0 < Real.logb 2 62 := Real.logb_pos (by norm_num) (by norm_num)
  have h5 : Real.logb 2 ((62 : ℝ) ^ (5 : ℕ)) < 32 := by
    rw [Real.logb_lt_iff_lt_rpow (by norm_num) (by positivity)]
    norm_num
  have h6 : (32 : ℝ) ≤ Real.logb 2 ((62 : ℝ) ^ (6 : ℕ)) := by
    rw [Real.le_logb_iff_rpow_le (by norm_num) (by positivity)]
    norm_num
  rw [Real.logb_pow] at h5 h6
  constructor
  · rw [lt_div_iff₀ hL]
    push_cast at h5 ⊢
    linarith
  · rw [div_le_iff₀ hL]
    push_cast at h6 ⊢
    linarith

/-- The exact quotient `32 / log2 62` lies strictly between `5 + 1/4` and
`6 - 1/4`, so every value within `1/4` of it, in particular the `float64`
result of the source expression, has the same ceiling. -/
theorem ceilDivLog2_margin (q : ℝ) (hq : |q - 32 / Real.logb 2 62| ≤ 1 / 4) :
    ⌈q⌉ = (ceilDivLog2 32 randomStringChars.length : ℤ) := by
  rw [charCount_eq, Int.ceil_eq_iff]
  have hL : 0 < Real.logb 2 62 := Real.logb_pos (by norm_num) (by norm_num)
  have hlo : (23 : ℝ) < Real.logb 2 ((62 : ℝ) ^ (4 : ℕ)) := by
    rw [Real.lt_logb_iff_rpow_lt (by norm_num) (by positivity)]
    norm_num
  have hhi : Real.logb 2 62 < 6 := by
    rw [Real.logb_lt_iff_lt_rpow (by norm_num) (by norm_num)]
    norm_num
  rw [Real.logb_pow] at hlo
  push_cast at hlo
  have h1 : (16 : ℝ) / 3 < 32 / Real.logb 2 62 := by
    rw [lt_div_iff₀ hL]
    linarith
  have h2 : 32 / Real.logb 2 62 < 128 / 23 := by
    rw [div_lt_iff₀ hL]
    linarith
  have h3 := abs_le.1 hq
  push_cast
  constructor <;> linarith [h3.1, h3.2]

theorem Salt_delivers (h : hasher) (stream : Nat → Byte) :
    h.Salt (.delivers stream) =
      ((List.range 6).map (fun i => randomStringChars.getD ((stream i).val % 62) 0), none) := by
  simp only [hasher.Salt, charCount_eq, randRead, randomStringChars_length, List.length_replicate,
    List.map_map]
  rfl

theorem Salt_fails (h : hasher) (err : GoError) : h.Salt (.fails err) = ([], some err) := by
  simp only [hasher.Salt, randRead]

theorem randomStringChars_props : ∀ i, i < 62 →
    randomStringChars.getD i 0 ∈ randomStringChars ∧ randomStringChars.getD i 0 ≠ dollar ∧
    ((97 ≤ (randomStringChars.getD i 0).val ∧ (randomStringChars.getD i 0).val ≤ 122) ∨
      (65 ≤ (randomStringChars.getD i 0).val ∧ (randomStringChars.getD i 0).val ≤ 90) ∨
      (48 ≤ (randomStringChars.getD i 0).val ∧ (randomStringChars.getD i 0).val ≤ 57)) := by
  decide

/-- C8 (salt alphabet). When the random source delivers the bytes `b_0, b_1, …`
`Salt` returns, with a nil error, the string whose `i`-th character is
`randomStringChars[b_i mod 62]`; each of its characters is one of the 62
characters of `randomStringChars`, that is a lower-case letter, an upper-case
letter or a digit, and the salt does not contain `'$'`. -/
theorem salt_alphabet (h : hasher) (stream : Nat → Byte) :
    h.Salt (.delivers stream) =
      ((List.range 6).map (fun i => randomStringChars.getD ((stream i).val % 62) 0), none) ∧
    randomStringChars = lit "abcdefghijklmnopqrstuvwxyzABCDEFGHIJKLMNOPQRSTUVWXYZ0123456789" ∧
    randomStringChars.length = 62 ∧
    (∀ c ∈ (h.Salt (.delivers stream)).1, c ∈ randomStringChars ∧
      ((97 ≤ c.val ∧ c.val ≤ 122) ∨ (65 ≤ c.val ∧ c.val ≤ 90) ∨ (48 ≤ c.val ∧ c.val ≤ 57))) ∧
    dollar ∉ (h.Salt (.delivers stream)).1 := by
  refine ⟨Salt_delivers h stream, rfl, randomStringChars_length, ?_, ?_⟩
  · rw [Salt_delivers]
    simp only [List.mem_map, List.mem_range]
    rintro c ⟨i, _, rfl⟩
    have := randomStringChars_props ((stream i).val % 62) (Nat.mod_lt _ (by decide))
    exact ⟨this.1, this.2.2⟩
  · rw [Salt_delivers]
    simp only [List.mem_map, List.mem_range, not_exists, not_and]
    intro i _ hc
    exact (randomStringChars_props ((stream i).val % 62) (Nat.mod_lt _ (by decide))).2.1 hc

/-- C9 (salt length). Every salt generated from a delivering random source has
length 6, whatever the instance and the bytes, and 6 is the least `n` with
`2^32 ≤ 62^n`: `62^5 < 2^32 ≤ 62^6`. -/
theorem salt_length (h : hasher) (stream : Nat → Byte) :
    (h.Salt (.delivers stream)).1.length = 6 ∧
    (h.Salt (.delivers stream)).1.length = ceilDivLog2 32 randomStringChars.length ∧
    IsLeast {n : ℕ | 2 ^ 32 ≤ randomStringChars.length ^ n} (h.Salt (.delivers stream)).1.length ∧
    62 ^ 5 < 2 ^ 32 ∧ 2 ^ 32 ≤ 62 ^ 6 := by
  have hlen : (h.Salt (.delivers stream)).1.length = 6 := by
    rw [Salt_delivers]
    simp
  refine ⟨hlen, by rw [hlen, charCount_eq], ?_, by norm_num, by norm_num⟩
  rw [hlen, randomStringChars_length]
  constructor
  · show 2 ^ 32 ≤ 62 ^ 6
    norm_num
  · intro n hn
    simp only [Set.mem_setOf_eq] at hn
    by_contra hlt
    have h5 : n ≤ 5 := by omega
    have : 62 ^ n ≤ 62 ^ 5 := Nat.pow_le_pow_right (by norm_num) h5
    norm_num at this hn
    omega

/-- C10 (salt failure). `Salt` returns a non-nil error exactly when the random
source fails, and a nil error exactly when it delivers bytes; on a failure it
returns the empty string together with the error of the source. -/
theorem salt_error_iff (h : hasher) (r : RandReader) :
    ((h.Salt r).2 ≠ none ↔ ∃ err, r = .fails err) ∧
    ((h.Salt r).2 = none ↔ ∃ stream, r = .delivers stream) ∧
    (∀ err, h.Salt (.fails err) = ([], some err)) := by
  refine ⟨?_, ?_, fun err => Salt_fails h err⟩
  · cases r with
    | fails e => simp [Salt_fails]
    | delivers s => simp [Salt_delivers]
  · cases r with
    | fails e => simp [Salt_fails]
    | delivers s => simp [Salt_delivers]

/-! ## Further lemmas for the remaining claims -/

/-- Splitting distributes over a delimiter: the fields of `a$rest` are the
fields of `a` followed by the fields of `rest`. -/
theorem Split_append (a rest : GoString) (sep : Byte) :
    Split (a ++ sep :: rest) sep = Split a sep ++ Split rest sep := by
  induction a with
  | nil => simp [Split]
  | cons c a ih =>
    rw [List.cons_append, Split]
    by_cases hc : c = sep
    · rw [if_pos hc, ih, Split, if_pos hc]
      simp
    · rw [if_neg hc, ih]
      conv_rhs => rw [Split, if_neg hc]
      cases hsp : Split a sep with
      | nil => exact absurd hsp (Split_ne_nil a sep)
      | cons p ps => simp

theorem dollar_not_mem_Salt (h : hasher) (stream : Nat → Byte) :
    dollar ∉ (h.Salt (.delivers stream)).1 := by
  rw [Salt_delivers]
  simp only [List.mem_map, List.mem_range, not_exists, not_and]
  intro i _ hc
  exact (randomStringChars_props ((stream i).val % 62) (Nat.mod_lt _ (by decide))).2.1 hc

theorem Verify_digest_congr (h1 h2 : hasher) (hd : h1.digest = h2.digest)
    (password encoded : GoString) : h1.Verify password encoded = h2.Verify password encoded := by
  simp only [hasher.Verify, hd]

/-- The result of `Verify` does not depend on a first field that is free of
the delimiter. -/
theorem Verify_first_field (h : hasher) (password a a2 rest : GoString)
    (ha : dollar ∉ a) (ha2 : dollar ∉ a2) :
    h.Verify password (a ++ dollar :: rest) = h.Verify password (a2 ++ dollar :: rest) := by
  simp only [hasher.Verify, Split_append_sep _ _ _ ha, Split_append_sep _ _ _ ha2,
    List.length_cons, List.getD_cons_succ]

theorem Verify_no_dollar (h : hasher) (password a : GoString) (ha : dollar ∉ a) :
    h.Verify password a = (false, none) := by
  apply Verify_of_length_ne
  rw [Split_of_not_mem _ _ ha]
  simp

/-- C11 (`Verify` reads only the digest of the instance). Two hashers with the
same digest return the same result on every password and encoded string,
whatever their algorithm names and iteration counts; replacing a first field
free of `'$'` by another string free of `'$'` does not change the result; and
a credential written by `h1` with a salt and an algorithm name free of `'$'`
verifies as `(true, nil)` on `h2`. -/
theorem verify_depends_only_on_digest (h1 h2 : hasher) (hd : h1.digest = h2.digest)
    (password encoded : GoString) :
    h1.Verify password encoded = h2.Verify password encoded ∧
    (∀ a a2 rest : GoString, dollar ∉ a → dollar ∉ a2 →
      h1.Verify password (a ++ dollar :: rest) = h1.Verify password (a2 ++ dollar :: rest)) ∧
    (∀ a a2 : GoString, dollar ∉ a → dollar ∉ a2 →
      h1.Verify password a = h1.Verify password a2) ∧
    (∀ salt : GoString, dollar ∉ h1.algorithm → isGoInt h1.iterations → dollar ∉ salt →
      h2.Verify password (h1.Encode password salt).1 = (true, none)) := by
  refine ⟨Verify_digest_congr h1 h2 hd password encoded,
    fun a a2 rest ha ha2 => Verify_first_field h1 password a a2 rest ha ha2,
    fun a a2 ha ha2 => by rw [Verify_no_dollar h1 password a ha, Verify_no_dollar h1 password a2 ha2],
    fun salt halg hit hsalt => ?_⟩
  rw [Verify_Encode h1 h2 password password salt halg hit hsalt, hd]
  simp

set_option maxRecDepth 100000 in
/-- C11 at `sha256OneIteration` (one iteration) and `PBKDF2PasswordHasher`
(260000 iterations), which share the digest SHA-256. -/
theorem verify_depends_only_on_digest_witness :
    sha256OneIteration.digest = PBKDF2PasswordHasher.digest ∧
    sha256OneIteration.iterations ≠ PBKDF2PasswordHasher.iterations ∧
    sha256OneIteration.Verify (lit "password") (lit "x$-1$salt$key") =
      PBKDF2PasswordHasher.Verify (lit "password") (lit "x$-1$salt$key") ∧
    sha256OneIteration.Verify (lit "password") (lit "pbkdf2_sha256$1$salt$key") =
      sha256OneIteration.Verify (lit "password") (lit "other$1$salt$key") ∧
    PBKDF2PasswordHasher.Verify (lit "password")
      (sha256OneIteration.Encode (lit "password") (lit "salt")).1 = (true, none) :=
  ⟨rfl, by decide,
    (verify_depends_only_on_digest sha256OneIteration PBKDF2PasswordHasher rfl (lit "password")
      (lit "x$-1$salt$key")).1,
    (verify_depends_only_on_digest sha256OneIteration PBKDF2PasswordHasher rfl (lit "password")
      []).2.1 (lit "pbkdf2_sha256") (lit "other") (lit "1$salt$key") (by decide) (by decide),
    (verify_depends_only_on_digest sha256OneIteration PBKDF2PasswordHasher rfl (lit "password")
      []).2.2.2 (lit "salt") (by decide) (by decide) (by decide)⟩

theorem cross_Verify_Encode (password salt : GoString) :
    (PBKDF2PasswordHasher.Verify password (PBKDF2SHA1PasswordHasher.Encode password salt).1).2 =
      none := by
  by_cases hs : dollar ∈ salt
  · rw [Verify_of_length_ne]
    rw [Split_length, count_dollar_Encode]
    have := List.count_pos_iff.2 hs
    omega
  · rw [Verify_Encode PBKDF2SHA1PasswordHasher PBKDF2PasswordHasher password password salt
      (by decide) (by decide) hs]

/-! ### Shape of the Base64 text -/

theorem b64char_mem (v : Nat) : b64char v ∈ encodeStd := by
  rw [b64char_eq]
  have : ∀ i, i < 64 → encodeStd.getD i 0 ∈ encodeStd := by decide
  exact this _ (Nat.mod_lt _ (by decide))

theorem EncodeToString_length (l : List Byte) :
    (EncodeToString l).length = 4 * ((l.length + 2) / 3) := by
  induction l using EncodeToString.induct with
  | case1 => simp [EncodeToString]
  | case2 a => simp [EncodeToString]
  | case3 a b => simp [EncodeToString]
  | case4 a b c rest ih =>
    simp only [EncodeToString, List.length_cons, ih]
    omega

/-- The Base64 text of a source whose length is 2 modulo 3 is a run of alphabet
characters followed by one padding character. -/
theorem EncodeToString_one_pad (l : List Byte) (hl : l.length % 3 = 2) :
    ∃ body : GoString, EncodeToString l = body ++ [61] ∧ ∀ c ∈ body, c ∈ encodeStd := by
  induction l using EncodeToString.induct with
  | case1 => simp at hl
  | case2 a => simp at hl
  | case3 a b =>
    refine ⟨[b64char ((a.val <<< 16 ||| b.val <<< 8) >>> 18),
      b64char ((a.val <<< 16 ||| b.val <<< 8) >>> 12),
      b64char ((a.val <<< 16 ||| b.val <<< 8) >>> 6)], by simp [EncodeToString], ?_⟩
    intro c hc
    simp only [List.mem_cons, List.mem_singleton, List.not_mem_nil, or_false] at hc
    rcases hc with hc | hc | hc <;> rw [hc] <;> exact b64char_mem _
  | case4 a b c rest ih =>
    have hr : rest.length % 3 = 2 := by
      simp only [List.length_cons] at hl
      omega
    obtain ⟨body, hb, hmem⟩ := ih hr
    refine ⟨b64char ((a.val <<< 16 ||| b.val <<< 8 ||| c.val) >>> 18) ::
      b64char ((a.val <<< 16 ||| b.val <<< 8 ||| c.val) >>> 12) ::
      b64char ((a.val <<< 16 ||| b.val <<< 8 ||| c.val) >>> 6) ::
      b64char (a.val <<< 16 ||| b.val <<< 8 ||| c.val) :: body, by simp [EncodeToString, hb], ?_⟩
    intro x hx
    simp only [List.mem_cons] at hx
    rcases hx with hx | hx | hx | hx | hx
    · rw [hx]; exact b64char_mem _
    · rw [hx]; exact b64char_mem _
    · rw [hx]; exact b64char_mem _
    · rw [hx]; exact b64char_mem _
    · exact hmem x hx

theorem getLast?_Split_append (a t : GoString) (sep : Byte) (ht : sep ∉ t) :
    (Split (a ++ sep :: t) sep).getLast? = some t := by
  rw [Split_append, Split_of_not_mem t sep ht]
  simp

theorem pad_not_mem_encodeStd : (61 : Byte) ∉ encodeStd := by decide

/-- C14 (shape of the derived-key field). For a hasher whose digest is SHA-256
or SHA-1, the last `'$'`-delimited field of the output of `Encode` is the
standard Base64 encoding of the derived key of exactly 32 bytes: it has 44
characters, its last character is `'='` and this is its only `'='`, all its
characters are among `A-Z`, `a-z`, `0-9`, `'+'`, `'/'`, `'='`, and it does not
contain `'$'`. -/
theorem derived_key_field_shape (h : hasher) (password salt : GoString)
    (hd : h.digest = sha256New ∨ h.digest = sha1New) :
    ∃ text : GoString,
      (Split (h.Encode password salt).1 dollar).getLast? = some text ∧
      text = EncodeToString (pbkdf2Key password salt h.iterations 32 h.digest) ∧
      (pbkdf2Key password salt h.iterations 32 h.digest).length = 32 ∧
      text.length = 44 ∧ text.getLast? = some 61 ∧ text.count 61 = 1 ∧
      (∀ c ∈ text,
        c ∈ lit "ABCDEFGHIJKLMNOPQRSTUVWXYZabcdefghijklmnopqrstuvwxyz0123456789+/=") ∧
      dollar ∉ text := by
  have hw : h.digest.WellFormed := by
    rcases hd with hd | hd
    · rw [hd]; exact sha256New_wellFormed
    · rw [hd]; exact sha1New_wellFormed
  have hlen := pbkdf2Key_length password salt h.iterations 32 h.digest hw
  obtain ⟨body, hb, hmem⟩ := EncodeToString_one_pad
    (pbkdf2Key password salt h.iterations 32 h.digest) (by rw [hlen])
  have hstd : lit "ABCDEFGHIJKLMNOPQRSTUVWXYZabcdefghijklmnopqrstuvwxyz0123456789+/=" =
      encodeStd ++ [61] := by decide
  refine ⟨EncodeToString (pbkdf2Key password salt h.iterations 32 h.digest), ?_, rfl, hlen, ?_,
    ?_, ?_, ?_, dollar_not_mem_EncodeToString _⟩
  · rw [Encode_eq]
    simp only
    rw [Split_append, Split_append, Split_append,
      Split_of_not_mem _ _ (dollar_not_mem_EncodeToString _)]
    simp
  · rw [EncodeToString_length, hlen]
  · rw [hb]
    simp
  · rw [hb, List.count_append, List.count_eq_zero_of_not_mem]
    · simp
    · exact fun hc => pad_not_mem_encodeStd (hmem _ hc)
  · intro c hc
    rw [hb] at hc
    rw [hstd]
    simp only [List.mem_append, List.mem_singleton] at hc ⊢
    rcases hc with hc | hc
    · exact Or.inl (hmem c hc)
    · exact Or.inr hc

set_option maxRecDepth 100000 in
/-- C14 at the two preconfigured hashers, password `hunter2`, salt `aB3xK9`. -/
theorem derived_key_field_shape_witness :
    (∃ text : GoString,
      (Split (PBKDF2PasswordHasher.Encode (lit "hunter2") (lit "aB3xK9")).1 dollar).getLast? =
        some text ∧ text.length = 44 ∧ text.getLast? = some 61 ∧ text.count 61 = 1 ∧
        dollar ∉ text) ∧
    (∃ text : GoString,
      (Split (PBKDF2SHA1PasswordHasher.Encode (lit "hunter2") (lit "aB3xK9")).1 dollar).getLast? =
        some text ∧ text.length = 44 ∧ text.getLast? = some 61 ∧ text.count 61 = 1 ∧
        dollar ∉ text) := by
  obtain ⟨t1, a1, _, _, a4, a5, a6, _, a8⟩ := derived_key_field_shape PBKDF2PasswordHasher
    (lit "hunter2") (lit "aB3xK9") (Or.inl rfl)
  obtain ⟨t2, b1, _, _, b4, b5, b6, _, b8⟩ := derived_key_field_shape PBKDF2SHA1PasswordHasher
    (lit "hunter2") (lit "aB3xK9") (Or.inr rfl)
  exact ⟨⟨t1, a1, a4, a5, a6, a8⟩, ⟨t2, b1, b4, b5, b6, b8⟩⟩

/-- C15 (delimiter in the salt is not guarded). `Encode` returns a nil error for
every salt; its output splits on `'$'` into four fields plus one for every
`'$'` in the algorithm name and in the salt; so when the salt contains `'$'`,
`Verify(P, Encode(P, S))` returns `(false, nil)`, for the right password too. -/
theorem encode_salt_with_delimiter (h : hasher) (password salt : GoString) :
    (h.Encode password salt).2 = none ∧
    (Split (h.Encode password salt).1 dollar).length =
      4 + (h.algorithm.count dollar + salt.count dollar) ∧
    (dollar ∈ salt → h.Verify password (h.Encode password salt).1 = (false, none)) := by
  refine ⟨rfl, ?_, fun hs => ?_⟩
  · rw [Split_length, count_dollar_Encode]
    omega
  · apply Verify_of_length_ne
    rw [Split_length, count_dollar_Encode]
    have := List.count_pos_iff.2 hs
    omega

set_option maxRecDepth 100000 in
/-- C15 at `PBKDF2PasswordHasher`, password `hunter2`, salt `a$b`: five fields
and a rejected correct password. -/
theorem encode_salt_with_delimiter_witness :
    dollar ∈ lit "a$b" ∧
    (PBKDF2PasswordHasher.Encode (lit "hunter2") (lit "a$b")).2 = none ∧
    (Split (PBKDF2PasswordHasher.Encode (lit "hunter2") (lit "a$b")).1 dollar).length = 5 ∧
    PBKDF2PasswordHasher.Verify (lit "hunter2")
      (PBKDF2PasswordHasher.Encode (lit "hunter2") (lit "a$b")).1 = (false, none) :=
  ⟨by decide,
    (encode_salt_with_delimiter PBKDF2PasswordHasher (lit "hunter2") (lit "a$b")).1,
    (encode_salt_with_delimiter PBKDF2PasswordHasher (lit "hunter2") (lit "a$b")).2.1,
    (encode_salt_with_delimiter PBKDF2PasswordHasher (lit "hunter2") (lit "a$b")).2.2
      (by decide)⟩

theorem hasherLibrary_eq :
    hasherLibrary = [(lit "pbkdf2_sha1", PBKDF2SHA1PasswordHasher),
      (lit "pbkdf2_sha256", PBKDF2PasswordHasher)] := by
  have hne : lit "pbkdf2_sha256" ≠ lit "pbkdf2_sha1" := by decide
  simp [hasherLibrary, mapSet, hne]

theorem mapGet_hasherLibrary (k : GoString) :
    mapGet hasherLibrary k =
      if k = lit "pbkdf2_sha1" then some PBKDF2SHA1PasswordHasher
      else if k = lit "pbkdf2_sha256" then some PBKDF2PasswordHasher else none := by
  rw [hasherLibrary_eq]
  by_cases h1 : k = lit "pbkdf2_sha1"
  · simp [mapGet, h1]
  · by_cases h2 : k = lit "pbkdf2_sha256"
    · have hne : lit "pbkdf2_sha1" ≠ lit "pbkdf2_sha256" := by decide
      simp [mapGet, h2, List.find?, hne, Ne.symm hne]
    · simp [mapGet, h1, h2, List.find?, Ne.symm h1, Ne.symm h2]

theorem head_Split_Encode (h : hasher) (password salt : GoString) (halg : dollar ∉ h.algorithm) :
    (Split (h.Encode password salt).1 dollar).headD [] = h.algorithm := by
  rw [Encode_eq]
  simp only
  rw [Split_append_sep _ _ _ halg]
  simp

/-- C16 (registry). After `init`, `hasherLibrary` has exactly the two keys
`pbkdf2_sha256` and `pbkdf2_sha1`; each is mapped to the preconfigured hasher
whose `algorithm` field is that key; and the first `'$'`-delimited field of a
credential written by a registered hasher looks up that hasher. -/
theorem library_routing :
    (∀ k : GoString, (mapGet hasherLibrary k).isSome = true ↔
      (k = lit "pbkdf2_sha256" ∨ k = lit "pbkdf2_sha1")) ∧
    hasherLibrary.length = 2 ∧
    mapGet hasherLibrary (lit "pbkdf2_sha256") = some PBKDF2PasswordHasher ∧
    mapGet hasherLibrary (lit "pbkdf2_sha1") = some PBKDF2SHA1PasswordHasher ∧
    (∀ (k : GoString) (h : hasher), mapGet hasherLibrary k = some h → h.algorithm = k) ∧
    (∀ (k : GoString) (h : hasher) (password salt : GoString),
      mapGet hasherLibrary k = some h → dollar ∉ salt →
        (Split (h.Encode password salt).1 dollar).headD [] = k ∧
        mapGet hasherLibrary ((Split (h.Encode password salt).1 dollar).headD []) = some h) := by
  have hkey : ∀ (k : GoString) (h : hasher), mapGet hasherLibrary k = some h →
      h.algorithm = k ∧ dollar ∉ h.algorithm := by
    intro k h hk
    rw [mapGet_hasherLibrary] at hk
    split at hk
    · rename_i h1
      simp only [Option.some.injEq] at hk
      rw [← hk, h1]
      exact ⟨rfl, by decide⟩
    · split at hk
      · rename_i h1 h2
        simp only [Option.some.injEq] at hk
        rw [← hk, h2]
        exact ⟨rfl, by decide⟩
      · simp at hk
  refine ⟨fun k => ?_, by rw [hasherLibrary_eq]; rfl, ?_, ?_, fun k h hk => (hkey k h hk).1, ?_⟩
  · rw [mapGet_hasherLibrary]
    by_cases h1 : k = lit "pbkdf2_sha1"
    · simp [h1]
    · by_cases h2 : k = lit "pbkdf2_sha256"
      · have hne : lit "pbkdf2_sha256" ≠ lit "pbkdf2_sha1" := by decide
        simp [h2, hne]
      · simp [h1, h2]
  · rw [mapGet_hasherLibrary]
    have hne : lit "pbkdf2_sha256" ≠ lit "pbkdf2_sha1" := by decide
    simp [hne]
  · rw [mapGet_hasherLibrary]
    simp
  · intro k h password salt hk _
    obtain ⟨h1, h2⟩ := hkey k h hk
    rw [head_Split_Encode h password salt h2, h1]
    exact ⟨rfl, hk⟩

/-- C17 (generated salts round-trip). For a hasher whose algorithm name is free
of `'$'` and whose iteration count is a Go `int`, every password and every
bytes the random source delivers, the salt `s` returned by `Salt` satisfies
`Verify(P, Encode(P, s)) = (true, nil)`. -/
theorem generated_salt_roundtrip (h : hasher) (password : GoString) (stream : Nat → Byte)
    (halg : dollar ∉ h.algorithm) (hit : isGoInt h.iterations) :
    (h.Salt (.delivers stream)).2 = none ∧
    h.Verify password (h.Encode password (h.Salt (.delivers stream)).1).1 = (true, none) := by
  refine ⟨by rw [Salt_delivers], ?_⟩
  rw [Verify_Encode h h password password _ halg hit (dollar_not_mem_Salt h stream)]
  simp

/-- C17 at `PBKDF2PasswordHasher`, password `hunter2`, and the random bytes
`0, 50, 100, 150, 200, 250`. -/
theorem generated_salt_roundtrip_witness :
    dollar ∉ PBKDF2PasswordHasher.algorithm ∧ isGoInt PBKDF2PasswordHasher.iterations ∧
    (PBKDF2PasswordHasher.Salt (.delivers (fun i => byte (i * 50)))).1 = lit "aYMAoc" ∧
    PBKDF2PasswordHasher.Verify (lit "hunter2")
      (PBKDF2PasswordHasher.Encode (lit "hunter2")
        (PBKDF2PasswordHasher.Salt (.delivers (fun i => byte (i * 50)))).1).1 = (true, none) :=
  ⟨by decide, by decide, by decide,
    (generated_salt_roundtrip PBKDF2PasswordHasher (lit "hunter2") (fun i => byte (i * 50))
      (by decide) (by decide)).2⟩

theorem not_isDigit_dollar : ¬ isDigit dollar := by decide

theorem dollar_not_mem_of_Atoi (r : GoString) (n : Int) (h : Atoi r = .ok n) : dollar ∉ r := by
  obtain ⟨⟨_, hd, _⟩, _⟩ := isDecimalInt_of_Atoi r n h
  cases r with
  | nil => simp
  | cons c rest =>
    have hbody : unsignedPart (c :: rest) = if c = 43 ∨ c = 45 then rest else c :: rest := rfl
    rw [hbody] at hd
    intro hmem
    by_cases hc : c = 43 ∨ c = 45
    · rw [if_pos hc] at hd
      simp only [List.mem_cons] at hmem
      rcases hmem with hmem | hmem
      · rcases hc with hc | hc
        · rw [hc] at hmem
          exact absurd hmem (by decide)
        · rw [hc] at hmem
          exact absurd hmem (by decide)
      · exact not_isDigit_dollar (hd _ hmem)
    · rw [if_neg hc] at hd
      exact not_isDigit_dollar (hd _ hmem)

theorem isGoInt_of_Atoi (r : GoString) (n : Int) (h : Atoi r = .ok n) : isGoInt n := by
  obtain ⟨⟨_, _, hr⟩, hv⟩ := isDecimalInt_of_Atoi r n h
  rw [hv]
  exact hr

theorem decVal_zeros (z : Nat) (l : GoString) :
    decVal 0 (List.replicate z (48 : Byte) ++ l) = decVal 0 l := by
  induction z with
  | zero => simp
  | succ z ih =>
    rw [List.replicate_succ, List.cons_append]
    simpa [decVal] using ih

/-- `Atoi` on an unsigned run of digits, and on the same run behind a sign. -/
theorem Atoi_of_digits (body : GoString) (hne : body ≠ []) (hd : ∀ c ∈ body, isDigit c) :
    (decVal 0 body < 2 ^ 63 → Atoi body = .ok (decVal 0 body : Int)) ∧
    (decVal 0 body < 2 ^ 63 → Atoi ((43 : Byte) :: body) = .ok (decVal 0 body : Int)) ∧
    (decVal 0 body ≤ 2 ^ 63 → Atoi ((45 : Byte) :: body) = .ok (- (decVal 0 body : Int))) := by
  obtain ⟨c, rest, hcr⟩ := List.exists_cons_of_ne_nil hne
  have hcd : isDigit c := hd c (by rw [hcr]; simp)
  have hc43 : c ≠ 43 := by
    intro e
    rw [e] at hcd
    exact absurd hcd (by decide)
  have hc45 : c ≠ 45 := by
    intro e
    rw [e] at hcd
    exact absurd hcd (by decide)
  refine ⟨fun hv => ?_, fun hv => ?_, fun hv => ?_⟩
  · have hu : unsignedPart body = body := by
      rw [hcr]
      simp [unsignedPart, hc43, hc45]
    have hs : isNegative body = false := by
      rw [hcr]
      simp [isNegative, hc45]
    have hval : intValue body = (decVal 0 body : Int) := by
      simp [intValue, hs, hu]
    have hdec : isDecimalInt body := by
      refine ⟨by rw [hu]; exact hne, by rw [hu]; exact hd, ?_⟩
      rw [hval]
      constructor
      · have : (0 : Int) ≤ (decVal 0 body : Int) := Int.natCast_nonneg _
        norm_num
        omega
      · exact_mod_cast hv
    rw [Atoi_of_isDecimalInt body hdec, hval]
  · have hu : unsignedPart ((43 : Byte) :: body) = body := by simp [unsignedPart]
    have hs : isNegative ((43 : Byte) :: body) = false := by
      have hne : (43 : Byte) ≠ 45 := by decide
      simp [isNegative, hne]
    have hval : intValue ((43 : Byte) :: body) = (decVal 0 body : Int) := by
      simp [intValue, hs, hu]
    have hdec : isDecimalInt ((43 : Byte) :: body) := by
      refine ⟨by rw [hu]; exact hne, by rw [hu]; exact hd, ?_⟩
      rw [hval]
      constructor
      · have : (0 : Int) ≤ (decVal 0 body : Int) := Int.natCast_nonneg _
        norm_num
        omega
      · exact_mod_cast hv
    rw [Atoi_of_isDecimalInt _ hdec, hval]
  · have hu : unsignedPart ((45 : Byte) :: body) = body := by simp [unsignedPart]
    have hs : isNegative ((45 : Byte) :: body) = true := by
      simp only [isNegative, List.head?_cons]
      decide
    have hval : intValue ((45 : Byte) :: body) = - (decVal 0 body : Int) := by
      simp [intValue, hs, hu]
    have hdec : isDecimalInt ((45 : Byte) :: body) := by
      refine ⟨by rw [hu]; exact hne, by rw [hu]; exact hd, ?_⟩
      rw [hval]
      constructor
      · have : ((decVal 0 body : Nat) : Int) ≤ 2 ^ 63 := by exact_mod_cast hv
        omega
      · have : (0 : Int) ≤ (decVal 0 body : Int) := Int.natCast_nonneg _
        norm_num
        omega
    rw [Atoi_of_isDecimalInt _ hdec, hval]

/-- The renderings of a Go `int` that `Atoi` reads back: the canonical one,
and the canonical one with zeros and a plus sign in front (for a negative
number the zeros go behind the minus sign). -/
theorem Atoi_renderings (n : Int) (hn : isGoInt n) :
    Atoi (Itoa n) = .ok n ∧
    (0 ≤ n → ∀ z : Nat, Atoi (List.replicate z (48 : Byte) ++ Itoa n) = .ok n ∧
      Atoi ((43 : Byte) :: (List.replicate z (48 : Byte) ++ Itoa n)) = .ok n) ∧
    (n < 0 → ∀ z : Nat,
      Atoi ((45 : Byte) :: (List.replicate z (48 : Byte) ++ (Itoa n).tail)) = .ok n) := by
  obtain ⟨f1, f2, f3⟩ := formatBits_spec (n.natAbs + 1) n.natAbs (Nat.lt_succ_self _)
  have hbody : ∀ z : Nat,
      List.replicate z (48 : Byte) ++ formatBits (n.natAbs + 1) n.natAbs [] ≠ [] ∧
      (∀ c ∈ List.replicate z (48 : Byte) ++ formatBits (n.natAbs + 1) n.natAbs [], isDigit c) ∧
      decVal 0 (List.replicate z (48 : Byte) ++ formatBits (n.natAbs + 1) n.natAbs []) =
        n.natAbs := by
    intro z
    refine ⟨by simp [f1], ?_, by rw [decVal_zeros, f3]⟩
    intro c hc
    simp only [List.mem_append, List.mem_replicate] at hc
    rcases hc with ⟨_, hc⟩ | hc
    · rw [hc]
      decide
    · exact f2 c hc
  unfold isGoInt at hn
  refine ⟨Atoi_Itoa n hn, fun h0 z => ?_, fun h0 z => ?_⟩
  · have hI : Itoa n = formatBits (n.natAbs + 1) n.natAbs [] := by
      simp [Itoa, not_lt.2 h0]
    obtain ⟨b1, b2, b3⟩ := hbody z
    obtain ⟨a1, a2, _⟩ := Atoi_of_digits _ b1 b2
    have hlt : decVal 0 (List.replicate z (48 : Byte) ++ formatBits (n.natAbs + 1) n.natAbs [])
        < 2 ^ 63 := by
      rw [b3]
      norm_num at hn ⊢
      omega
    have hval : ((n.natAbs : Nat) : Int) = n := by omega
    rw [hI, a1 hlt, a2 hlt, b3, hval]
    exact ⟨rfl, rfl⟩
  · have hI : (Itoa n).tail = formatBits (n.natAbs + 1) n.natAbs [] := by
      simp [Itoa, h0]
    obtain ⟨b1, b2, b3⟩ := hbody z
    obtain ⟨_, _, a3⟩ := Atoi_of_digits _ b1 b2
    have hle : decVal 0 (List.replicate z (48 : Byte) ++ formatBits (n.natAbs + 1) n.natAbs [])
        ≤ 2 ^ 63 := by
      rw [b3]
      norm_num at hn ⊢
      omega
    have hval : - ((n.natAbs : Nat) : Int) = n := by omega
    rw [hI, a3 hle, b3, hval]

/-- C18 (`Verify` accepts every rendering of the iteration count). On a
credential `a$r$s$k` with `a`, `s`, `k` free of `'$'`, `Verify` returns the same
result for all iterations fields `r` that `strconv.Atoi` parses to the same
integer `n`: a nil error and the comparison of `k` with the key derived with
`n` iterations. Such fields are the canonical decimal of `n`, the same with
leading zeros, and with a leading `'+'` when `n` is not negative. -/
theorem verify_iterations_rendering (h : hasher) (password a s k r1 r2 : GoString) (n : Int)
    (ha : dollar ∉ a) (hs : dollar ∉ s) (hk : dollar ∉ k)
    (h1 : Atoi r1 = .ok n) (h2 : Atoi r2 = .ok n) :
    h.Verify password (Join [a, r1, s, k] dollar) =
      h.Verify password (Join [a, r2, s, k] dollar) ∧
    h.Verify password (Join [a, r1, s, k] dollar) =
      (decide (k = EncodeToString (pbkdf2Key password s n 32 h.digest)), none) ∧
    isGoInt n ∧ Atoi (Itoa n) = .ok n ∧
    (0 ≤ n → ∀ z : Nat, Atoi (List.replicate z (48 : Byte) ++ Itoa n) = .ok n ∧
      Atoi ((43 : Byte) :: (List.replicate z (48 : Byte) ++ Itoa n)) = .ok n) ∧
    (n < 0 → ∀ z : Nat,
      Atoi ((45 : Byte) :: (List.replicate z (48 : Byte) ++ (Itoa n).tail)) = .ok n) := by
  have hv : ∀ r : GoString, Atoi r = .ok n →
      h.Verify password (Join [a, r, s, k] dollar) =
        (decide (k = EncodeToString (pbkdf2Key password s n 32 h.digest)), none) := by
    intro r hr
    exact Verify_of_fields_ok h password _ a r s k
      (Split_Join_four a r s k dollar ha (dollar_not_mem_of_Atoi r n hr) hs hk) n hr
  have hn := isGoInt_of_Atoi r1 n h1
  exact ⟨by rw [hv r1 h1, hv r2 h2], hv r1 h1, hn, Atoi_renderings n hn⟩

set_option maxRecDepth 100000 in
/-- C18 at the iterations fields `0260000`, `+260000` and `260000`. -/
theorem verify_iterations_rendering_witness :
    Atoi (lit "0260000") = .ok 260000 ∧ Atoi (lit "+260000") = .ok 260000 ∧
    Atoi (lit "260000") = .ok 260000 ∧
    PBKDF2PasswordHasher.Verify (lit "hunter2") (lit "pbkdf2_sha256$0260000$salt$key") =
      PBKDF2PasswordHasher.Verify (lit "hunter2") (lit "pbkdf2_sha256$260000$salt$key") ∧
    PBKDF2PasswordHasher.Verify (lit "hunter2") (lit "pbkdf2_sha256$+260000$salt$key") =
      PBKDF2PasswordHasher.Verify (lit "hunter2") (lit "pbkdf2_sha256$260000$salt$key") :=
  ⟨rfl, rfl, rfl,
    (verify_iterations_rendering PBKDF2PasswordHasher (lit "hunter2") (lit "pbkdf2_sha256")
      (lit "salt") (lit "key") (lit "0260000") (lit "260000") 260000
      (by decide) (by decide) (by decide) rfl rfl).1,
    (verify_iterations_rendering PBKDF2PasswordHasher (lit "hunter2") (lit "pbkdf2_sha256")
      (lit "salt") (lit "key") (lit "+260000") (lit "260000") 260000
      (by decide) (by decide) (by decide) rfl rfl).1⟩

set_option maxRecDepth 1000000 in
/-- C19 (modulo bias of `Salt`). The map `b ↦ randomStringChars[b mod 62]` on
the 256 byte values is not uniform: `256 = 4 * 62 + 8`, each of the first
eight characters `a` to `h` of the alphabet has exactly 5 preimages and each of
the other 54 characters has exactly 4. -/
theorem salt_modulo_bias :
    256 = 4 * randomStringChars.length + 8 ∧
    randomStringChars.Nodup ∧
    randomStringChars.take 8 = lit "abcdefgh" ∧
    (randomStringChars.drop 8).length = 54 ∧
    (∀ c ∈ randomStringChars.take 8, preimageCount c = 5) ∧
    (∀ c ∈ randomStringChars.drop 8, preimageCount c = 4) ∧
    (∀ i, i < 62 → preimageCount (randomStringChars.getD i 0) = if i < 8 then 5 else 4) ∧
    (∀ c : Byte, c ∉ randomStringChars → preimageCount c = 0) := by
  refine ⟨by decide, by decide, by decide, by decide, by decide, by decide, by decide, ?_⟩
  intro c hc
  simp only [preimageCount, List.length_eq_zero, List.filter_eq_nil_iff, decide_eq_true_eq]
  intro b _ hb
  apply hc
  rw [← hb]
  exact (randomStringChars_props _ (Nat.mod_lt _ (by decide))).1

end Hasher
